import Mathlib

/-!
# 4em, an emulator of the 4917 four-bit machine

Shallow embedding of `src/4em.c` and theorems about it.

The program is one C function, `main`, made of two loops: the loader
(lines 51-86) and the fetch-decode-execute loop (lines 88-176).  Each loop
body is a Lean function on an explicit state, and each place where C leaves
the behaviour undefined (an index outside an array, a value `atoi` cannot
represent) is an explicit `undefined` / `none` result.

C implementation parameters used by the embedding (GCC or Clang on x86-64):
`int` has 32 bits, plain `char` is signed and has 8 bits, and converting an
`int` that does not fit to `char` wraps modulo 256.  `%` on `int` truncates
towards zero (C99), which is `Int.tmod`.
-/

namespace Em4917

/-! ## C library and implementation parameters -/

/-- Largest value of a C `int`. -/
def INT_MAX : Int := 2147483647

/-- The end-of-stream value returned by `fgetc`. -/
def EOF : Int := -1

/-- Conversion of an `int` to plain `char` (signed, 8 bits, wrapping), as done
by every assignment to a cell of `char memory[16]`. -/
def toChar (v : Int) : Int := (v + 128) % 256 - 128

/-- The function `isdigit` of `<ctype.h>` in the C locale: true exactly on the
codes of `'0'` .. `'9'`; false on `EOF`. -/
def isdigit (ch : Int) : Bool := decide (48 ≤ ch) && decide (ch ≤ 57)

/-- The function `atoi` on a string made of digit characters only (the loader
stores nothing else): the decimal value, or `none` when the value cannot be
represented in an `int` (undefined behaviour in C). -/
def atoi (s : List Int) : Option Int :=
  let v := s.foldl (fun acc c => 10 * acc + (c - 48)) 0
  if v ≤ INT_MAX then some v else none

/-- What `printf("%d", v)` writes. -/
def decimal (v : Int) : List Char :=
  if v < 0 then '-' :: Nat.toDigits 10 v.natAbs else Nat.toDigits 10 v.natAbs

/-- Read of `memory[i]`; `none` when `i` is outside `0..15`. -/
def readMem (memory : List Int) (i : Int) : Option Int :=
  if 0 ≤ i ∧ i < 16 then memory[i.toNat]? else none

/-- Assignment `memory[i] = v`; `none` when `i` is outside `0..15`. -/
def writeMem (memory : List Int) (i : Int) (v : Int) : Option (List Int) :=
  if 0 ≤ i ∧ i < 16 then some (memory.set i.toNat (toChar v)) else none

/-! ## The loader (lines 51-86) -/

/-- How the loader ends. The three error constructors are the three
`exit(1)` paths with their messages on standard error. -/
inductive LoadResult where
  /-- The loop was left normally with this content of `memory`. -/
  | loaded (memory : List Int)
  /-- Message "Error: program too big". -/
  | tooBig
  /-- Message "Error: program contains negative instructions". -/
  | negative
  /-- Message "Error: program contains instructions that are too large". -/
  | tooLarge
  /-- The loader did something C does not define (wrote past `instruct[12]`,
  or called `atoi` on a value that is not an `int`). -/
  | undefined
  deriving DecidableEq, Repr

/-- The loader's variables: `instruct` holds the characters
`instruct[0 .. instruct_i - 1]`, so `instruct_i` is its length. -/
structure Loader where
  instruct : List Int
  mp : Nat
  memory : List Int
  deriving DecidableEq, Repr

/-- Variable `instruct_i`. -/
def Loader.instruct_i (st : Loader) : Nat := st.instruct.length

/-- State after `memset(memory, 0, sizeof(memory)); instruct_i = 0; mp = 0;`. -/
def Loader.init : Loader := ⟨[], 0, List.replicate 16 0⟩

/-- Lines 59-78: the pending token becomes the next memory cell. -/
def flush (st : Loader) : Except LoadResult Loader :=
  if st.mp = 16 then .error .tooBig
  else if 12 ≤ st.instruct_i then .error .undefined
  else
    match atoi st.instruct with
    | none => .error .undefined
    | some v =>
      let memory := st.memory.set st.mp (toChar v)
      let mp := st.mp + 1
      let cell := (memory[mp - 1]?).getD 0
      if cell < 0 then .error .negative
      else if cell > 15 then .error .tooLarge
      else .ok ⟨[], mp, memory⟩

/-- Lines 56-79: the loop body for one value `ch` of `fgetc`. -/
def loaderBody (ch : Int) (st : Loader) : Except LoadResult Loader :=
  if isdigit ch then
    if st.instruct_i < 12 then .ok { st with instruct := st.instruct ++ [ch] }
    else .error .undefined
  else if st.instruct_i > 0 then flush st
  else .ok st

/-- The loop `while (ch = fgetc(in)) { ...; if (ch == EOF) break; }` over the
bytes of the input: a zero byte makes the loop condition false, the end of
the stream runs the body once with `EOF` and breaks. -/
def loaderLoop : List Nat → Loader → LoadResult
  | [], st =>
    match loaderBody EOF st with
    | .error e => e
    | .ok st' => .loaded st'.memory
  | b :: rest, st =>
    if (b : Int) = 0 then .loaded st.memory
    else
      match loaderBody (b : Int) st with
      | .error e => e
      | .ok st' => loaderLoop rest st'

/-- The loader on a program text given as its bytes. -/
def load (text : List Nat) : LoadResult := loaderLoop text Loader.init

/-! ## The execution engine (lines 88-176) -/

/-- The engine's variables, with the bytes written to standard output. -/
structure State where
  ip : Int
  is : Int
  r0 : Int
  r1 : Int
  data : Int
  memory : List Int
  out : List Char
  deriving DecidableEq, Repr

/-- State after `ip = 0; is = 0; r0 = 0; r1 = 0;`. The variable `data` is not
initialised by the source; no path reads it before line 101 has assigned it
in the same cycle, so its initial value is never observed. -/
def State.init (memory : List Int) : State := ⟨0, 0, 0, 0, 0, memory, []⟩

/-- Lines 94-98: fetch. -/
def fetch (s : State) : Option State :=
  if s.ip > 15 then some { s with is := 0 }
  else (readMem s.memory s.ip).map fun v => { s with is := v, ip := s.ip + 1 }

/-- Lines 100-102: operand fetch. -/
def operand (s : State) : Option State :=
  if s.is > 7 then
    (readMem s.memory s.ip).map fun v => { s with data := v, ip := s.ip + 1 }
  else some s

/-- Lines 104-175: the `switch`. A value of `is` outside `0..15` matches no
case. `FAKE_BELL` is not defined, so BELL is `putchar` of character 7. -/
def dispatch (s : State) : Option State :=
  if s.is = 0 then some s
  else if s.is = 1 then some { s with r0 := Int.tmod (s.r0 + s.r1) 16 }
  else if s.is = 2 then some { s with r0 := Int.tmod (s.r0 - s.r1) 16 }
  else if s.is = 3 then some { s with r0 := Int.tmod (s.r0 + 1) 16 }
  else if s.is = 4 then some { s with r1 := Int.tmod (s.r1 + 1) 16 }
  else if s.is = 5 then some { s with r0 := Int.tmod (s.r0 - 1) 16 }
  else if s.is = 6 then some { s with r1 := Int.tmod (s.r1 - 1) 16 }
  else if s.is = 7 then some { s with out := s.out ++ [Char.ofNat 7] }
  else if s.is = 8 then
    (readMem s.memory (s.ip - 1)).map fun v =>
      { s with out := s.out ++ decimal v ++ [' '] }
  else if s.is = 9 then
    (readMem s.memory s.data).map fun v => { s with r0 := v }
  else if s.is = 10 then
    (readMem s.memory s.data).map fun v => { s with r1 := v }
  else if s.is = 11 then
    (writeMem s.memory s.data s.r0).map fun m => { s with memory := m }
  else if s.is = 12 then
    (writeMem s.memory s.data s.r1).map fun m => { s with memory := m }
  else if s.is = 13 then some { s with ip := s.data }
  else if s.is = 14 then
    if s.r0 = 0 then some { s with ip := s.data } else some s
  else if s.is = 15 then
    if s.r0 ≠ 0 then some { s with ip := s.data } else some s
  else some s

/-- One pass through the body of the `do ... while` loop; `none` when the
pass indexes `memory` outside `0..15`. -/
def cycle (s : State) : Option State :=
  (fetch s).bind fun s1 => (operand s1).bind dispatch

/-- How a bounded execution ends. -/
inductive Outcome where
  /-- The loop condition `is != 0` became false in this state. -/
  | halted (s : State)
  /-- The given number of cycles was executed and the loop goes on. -/
  | running (s : State)
  /-- A cycle indexed `memory` outside `0..15`. -/
  | undefined
  deriving DecidableEq, Repr

/-- The loop `do { ... } while (is != 0)`, for at most `fuel` cycles. -/
def exec : Nat → State → Outcome
  | 0, s => .running s
  | fuel + 1, s =>
    match cycle s with
    | none => .undefined
    | some s' => if s'.is ≠ 0 then exec fuel s' else .halted s'

/-- The state after exactly `n` cycles, the loop condition left aside. -/
def cycles : Nat → State → Option State
  | 0, s => some s
  | n + 1, s => (cycle s).bind (cycles n)

/-- How a run of the program ends. -/
inductive Run where
  /-- `exit(1)` in the loader; nothing was written to standard output. -/
  | loadError (e : LoadResult)
  /-- `return 0` with this final state; `out` ends with the newline of
  line 178. -/
  | finished (s : State)
  /-- Still executing after the given number of cycles. -/
  | unfinished (s : State)
  /-- Undefined behaviour in the loader or in a cycle. -/
  | undefined
  deriving DecidableEq, Repr

/-- The program on an input text (read from the file or from standard input),
the engine bounded to `fuel` cycles. -/
def run (fuel : Nat) (text : List Nat) : Run :=
  match load text with
  | .loaded memory =>
    match exec fuel (State.init memory) with
    | .halted s => .finished { s with out := s.out ++ ['\n'] }
    | .running s => .unfinished s
    | .undefined => .undefined
  | .undefined => .undefined
  | e => .loadError e

/-- The bytes of an ASCII string. -/
def bytes (s : String) : List Nat := s.toList.map Char.toNat

/-- The exit status of a run that ends: 1 after a loader error, 0 after
`return 0`. -/
def exitStatus : Run → Option Int
  | .loadError _ => some 1
  | .finished _ => some 0
  | _ => none

/-- Everything a run that ends has written to standard output. -/
def stdout : Run → Option (List Char)
  | .loadError _ => some []
  | .finished s => some s.out
  | _ => none

/-! ## Words of the specification -/

/-- A token separator: any byte that is not a decimal digit. -/
def isSeparator (b : Nat) : Bool := !(isdigit (b : Int))

/-- The tokens of a text: its maximal runs of decimal digits. -/
def tokens (text : List Nat) : List (List Nat) :=
  (text.splitOnP isSeparator).filter fun t => !t.isEmpty

/-- The number a token denotes in base ten. -/
def tokenValue (t : List Nat) : Nat := t.foldl (fun acc b => 10 * acc + (b - 48)) 0

/-- A memory content: the given cells followed by zeros up to 16 cells. -/
def padded (cells : List Int) : List Int := cells ++ List.replicate (16 - cells.length) 0

/-! ## The loader seen token by token -/

/-- The tokens that are still to come when the digits `cur` of an unfinished
token have been read and `text` is what remains of the input. -/
def pending (cur : List Nat) (text : List Nat) : List (List Nat) :=
  ((text.splitOnP isSeparator).modifyHead fun t => cur ++ t).filter fun t => !t.isEmpty

/-- The effect of flushing the given tokens one after the other, starting
with `mp` cells filled. -/
def place : List (List Nat) → Nat → List Int → LoadResult
  | [], _, memory => .loaded memory
  | t :: ts, mp, memory =>
    match flush ⟨t.map Int.ofNat, mp, memory⟩ with
    | .error e => e
    | .ok st => place ts st.mp st.memory

/-! ## Invariants -/

/-- Loader invariant: at most 16 cells are filled and memory is 16 cells with
values in 0..15. -/
def Loader.Valid (st : Loader) : Prop :=
  st.mp ≤ 16 ∧ st.memory.length = 16 ∧ ∀ x ∈ st.memory, 0 ≤ x ∧ x ≤ 15

/-- Engine invariant: memory is 16 cells, and the cells, the opcode variable
and both registers are within -15..15. -/
def Bounded (s : State) : Prop :=
  s.memory.length = 16 ∧ (∀ x ∈ s.memory, -15 ≤ x ∧ x ≤ 15) ∧
  (-15 ≤ s.is ∧ s.is ≤ 15) ∧ (-15 ≤ s.r0 ∧ s.r0 ≤ 15) ∧ (-15 ≤ s.r1 ∧ s.r1 ≤ 15)

/-- Engine invariant: no newline has been written. -/
def NoNewline (s : State) : Prop := '\n' ∉ s.out

/-! ## Memory access -/

theorem readMem_bounds {memory : List Int} {i v : Int} (h : readMem memory i = some v) :
    0 ≤ i ∧ i < 16 := by
  unfold readMem at h
  by_cases hb : 0 ≤ i ∧ i < 16
  · exact hb
  · simp [hb] at h

theorem readMem_defined {memory : List Int} {i : Int} (hlen : memory.length = 16)
    (h0 : 0 ≤ i) (h1 : i < 16) : ∃ v, readMem memory i = some v := by
  have hi : i.toNat < memory.length := by omega
  exact ⟨memory[i.toNat], by simp [readMem, h0, h1, List.getElem?_eq_getElem hi]⟩

theorem fetch_of_read {s : State} {v : Int} (h : readMem s.memory s.ip = some v) :
    fetch s = some { s with is := v, ip := s.ip + 1 } := by
  have hb := readMem_bounds h
  have : ¬ s.ip > 15 := by omega
  simp [fetch, this, h]

/-! ## Opcodes 1, 3, 4 -/

theorem tmod_of_nonneg {a : Int} (h : 0 ≤ a) : Int.tmod a 16 = a % 16 := by
  rw [Int.tmod_eq_emod h (by decide)]

/-- C5: on registers in [0,15], ADD sets r0 to (r0 + r1) mod 16, INC0 sets r0
to (r0 + 1) mod 16 and INC1 sets r1 to (r1 + 1) mod 16; nothing else but ip
and the opcode variable changes, the results are in [0,15], and 15
increments to 0. -/
theorem additive_opcodes (s : State)
    (h0 : 0 ≤ s.r0 ∧ s.r0 ≤ 15) (h1 : 0 ≤ s.r1 ∧ s.r1 ≤ 15) :
    (readMem s.memory s.ip = some 1 →
      cycle s = some { s with is := 1, ip := s.ip + 1, r0 := (s.r0 + s.r1) % 16 }) ∧
    (readMem s.memory s.ip = some 3 →
      cycle s = some { s with is := 3, ip := s.ip + 1, r0 := (s.r0 + 1) % 16 }) ∧
    (readMem s.memory s.ip = some 4 →
      cycle s = some { s with is := 4, ip := s.ip + 1, r1 := (s.r1 + 1) % 16 }) ∧
    (0 ≤ (s.r0 + s.r1) % 16 ∧ (s.r0 + s.r1) % 16 ≤ 15) ∧
    (0 ≤ (s.r0 + 1) % 16 ∧ (s.r0 + 1) % 16 ≤ 15) ∧
    (0 ≤ (s.r1 + 1) % 16 ∧ (s.r1 + 1) % 16 ≤ 15) ∧
    (s.r0 = 15 → (s.r0 + 1) % 16 = 0) ∧ (s.r1 = 15 → (s.r1 + 1) % 16 = 0) := by
  refine ⟨?_, ?_, ?_, by omega, by omega, by omega, by omega, by omega⟩
  · intro h
    simp [cycle, fetch_of_read h, operand, dispatch, tmod_of_nonneg (a := s.r0 + s.r1) (by omega)]
  · intro h
    simp [cycle, fetch_of_read h, operand, dispatch, tmod_of_nonneg (a := s.r0 + 1) (by omega)]
  · intro h
    simp [cycle, fetch_of_read h, operand, dispatch, tmod_of_nonneg (a := s.r1 + 1) (by omega)]

theorem additive_opcodes_witness :
    ((0 : Int) ≤ 15 ∧ (15 : Int) ≤ 15) ∧
    cycle ⟨0, 0, 15, 1, 0, padded [1], []⟩ = some ⟨1, 1, 0, 1, 0, padded [1], []⟩ ∧
    cycle ⟨0, 0, 15, 1, 0, padded [3], []⟩ = some ⟨1, 3, 0, 1, 0, padded [3], []⟩ ∧
    cycle ⟨0, 0, 9, 15, 0, padded [4], []⟩ = some ⟨1, 4, 9, 0, 0, padded [4], []⟩ :=
  ⟨by decide,
    (additive_opcodes ⟨0, 0, 15, 1, 0, padded [1], []⟩ (by decide) (by decide)).1 (by decide),
    (additive_opcodes ⟨0, 0, 15, 1, 0, padded [3], []⟩ (by decide) (by decide)).2.1 (by decide),
    (additive_opcodes ⟨0, 0, 9, 15, 0, padded [4], []⟩ (by decide) (by decide)).2.2.1
      (by decide)⟩

/-! ## Opcodes 2, 5, 6 -/

/-- C2: the code at the claim's own example. The program "3 3 4 4 4 4 4 2 0"
reaches SUB with r0 = 2 and r1 = 5, and SUB leaves r0 = -3 (the truncating
remainder of line 113), where the claim requires 13. -/
theorem sub_yields_negative :
    cycle ⟨7, 4, 2, 5, 0, padded [3, 3, 4, 4, 4, 4, 4, 2, 0], []⟩
      = some ⟨8, 2, -3, 5, 0, padded [3, 3, 4, 4, 4, 4, 4, 2, 0], []⟩ ∧
    run 20 (bytes "3 3 4 4 4 4 4 2 0")
      = .finished ⟨9, 0, -3, 5, 0, padded [3, 3, 4, 4, 4, 4, 4, 2, 0], ['\n']⟩ ∧
    ((2 : Int) - 5) % 16 = 13 := by
  decide

/-- C3: the code at the claim's own example. The program "5" (DEC0 from
r0 = 0) halts with r0 = -1 and the program "6" (DEC1 from r1 = 0) halts with
r1 = -1, where the claim requires 15. -/
theorem dec_yields_negative :
    run 20 (bytes "5") = .finished ⟨2, 0, -1, 0, 0, padded [5], ['\n']⟩ ∧
    run 20 (bytes "6") = .finished ⟨2, 0, 0, -1, 0, padded [6], ['\n']⟩ ∧
    ((0 : Int) - 1) % 16 = 15 := by
  decide

/-- C4: a state reachable from the start state of an accepted program with a
register outside [0,15]: after two cycles of the program "4 2 0" (INC1, SUB)
r0 is -1. -/
theorem register_leaves_range :
    load (bytes "4 2 0") = .loaded (padded [4, 2, 0]) ∧
    cycles 2 (State.init (padded [4, 2, 0]))
      = some ⟨2, 2, -1, 1, 0, padded [4, 2, 0], []⟩ ∧
    ¬ (0 ≤ (-1 : Int)) := by
  decide

/-! ## Opcodes with an operand -/

/-- The fetch and the operand fetch of a cycle whose opcode `op` is above 7
and whose operand cell holds `v`. -/
theorem fetch_operand {s : State} {op v : Int} (hop : readMem s.memory s.ip = some op)
    (h7 : op > 7) (hv : readMem s.memory (s.ip + 1) = some v) :
    cycle s = dispatch { s with is := op, data := v, ip := s.ip + 1 + 1 } := by
  have h2 : operand { s with is := op, ip := s.ip + 1 }
      = some { s with is := op, data := v, ip := s.ip + 1 + 1 } := by
    simp [operand, h7, hv]
  simp [cycle, fetch_of_read hop, h2]

/-- C9: in a state with ip <= 14 and memory[ip] = 8, one cycle appends the
decimal rendering of memory[ip+1] and one space to the output, moves ip to
ip + 2 and changes no register and no memory cell; the program "3 3 3 8 0"
ends with r0 = 3 and output "0 \n". -/
theorem print_operand (s : State) (hlen : s.memory.length = 16) (hip : s.ip ≤ 14)
    (hop : readMem s.memory s.ip = some 8) :
    (∃ v, readMem s.memory (s.ip + 1) = some v ∧
      cycle s = some { s with is := 8, data := v, ip := s.ip + 2,
                              out := s.out ++ decimal v ++ [' '] }) ∧
    run 20 (bytes "3 3 3 8 0")
      = .finished ⟨6, 0, 3, 0, 0, padded [3, 3, 3, 8, 0], ['0', ' ', '\n']⟩ := by
  refine ⟨?_, by decide⟩
  have hb := readMem_bounds hop
  obtain ⟨v, hv⟩ := readMem_defined (i := s.ip + 1) hlen (by omega) (by omega)
  refine ⟨v, hv, ?_⟩
  rw [fetch_operand hop (by decide) hv]
  have e : s.ip + 1 + 1 = s.ip + 2 := by ring
  have e1 : s.ip + 2 - 1 = s.ip + 1 := by ring
  simp [dispatch, hv, e, e1]

theorem print_operand_witness :
    (∃ v, readMem (padded [3, 3, 3, 8, 9]) (3 + 1) = some v ∧
      cycle ⟨3, 3, 3, 0, 0, padded [3, 3, 3, 8, 9], []⟩
        = some ⟨3 + 2, 8, 3, 0, v, padded [3, 3, 3, 8, 9], [] ++ decimal v ++ [' ']⟩) ∧
    run 20 (bytes "3 3 3 8 0")
      = .finished ⟨6, 0, 3, 0, 0, padded [3, 3, 3, 8, 0], ['0', ' ', '\n']⟩ :=
  print_operand ⟨3, 3, 3, 0, 0, padded [3, 3, 3, 8, 9], []⟩ (by decide) (by decide) (by decide)

/-- C10: in a state with ip <= 14 and memory[ip] = 13, one cycle sets ip to
the value of memory[ip+1] and changes no register, no memory cell and no
output; the program "13 2 0 0" fetches HALT at cell 2 on its second cycle and
outputs only the newline. -/
theorem jmp_absolute (s : State) (hlen : s.memory.length = 16) (hip : s.ip ≤ 14)
    (hop : readMem s.memory s.ip = some 13) :
    (∃ v, readMem s.memory (s.ip + 1) = some v ∧
      cycle s = some { s with is := 13, data := v, ip := v }) ∧
    cycles 1 (State.init (padded [13, 2, 0, 0]))
      = some ⟨2, 13, 0, 0, 2, padded [13, 2, 0, 0], []⟩ ∧
    fetch ⟨2, 13, 0, 0, 2, padded [13, 2, 0, 0], []⟩
      = some ⟨3, 0, 0, 0, 2, padded [13, 2, 0, 0], []⟩ ∧
    run 20 (bytes "13 2 0 0")
      = .finished ⟨3, 0, 0, 0, 2, padded [13, 2, 0, 0], ['\n']⟩ := by
  refine ⟨?_, by decide, by decide, by decide⟩
  have hb := readMem_bounds hop
  obtain ⟨v, hv⟩ := readMem_defined (i := s.ip + 1) hlen (by omega) (by omega)
  refine ⟨v, hv, ?_⟩
  rw [fetch_operand hop (by decide) hv]
  simp [dispatch]

theorem jmp_absolute_witness :
    (∃ v, readMem (padded [3, 13, 7, 0]) (1 + 1) = some v ∧
      cycle ⟨1, 3, 1, 0, 0, padded [3, 13, 7, 0], []⟩
        = some ⟨v, 13, 1, 0, v, padded [3, 13, 7, 0], []⟩) ∧
    cycles 1 (State.init (padded [13, 2, 0, 0]))
      = some ⟨2, 13, 0, 0, 2, padded [13, 2, 0, 0], []⟩ ∧
    fetch ⟨2, 13, 0, 0, 2, padded [13, 2, 0, 0], []⟩
      = some ⟨3, 0, 0, 0, 2, padded [13, 2, 0, 0], []⟩ ∧
    run 20 (bytes "13 2 0 0")
      = .finished ⟨3, 0, 0, 0, 2, padded [13, 2, 0, 0], ['\n']⟩ :=
  jmp_absolute ⟨1, 3, 1, 0, 0, padded [3, 13, 7, 0], []⟩ (by decide) (by decide) (by decide)

/-! ## Self-modifying code -/

theorem operand_is {s s' : State} (h : operand s = some s') : s'.is = s.is := by
  unfold operand at h
  split_ifs at h
  · simp only [Option.map_eq_some'] at h
    obtain ⟨v, _, rfl⟩ := h
    rfl
  · simp only [Option.some.injEq] at h
    subst h
    rfl

theorem some_is {a s' : State} {x : Int} (ha : a.is = x) (h : some a = some s') :
    s'.is = x := by
  cases h
  exact ha

theorem map_is {α : Type} {o : Option α} {g : α → State} {s' : State} {x : Int}
    (hg : ∀ v, (g v).is = x) (h : o.map g = some s') : s'.is = x := by
  cases o with
  | none => simp at h
  | some v =>
    simp only [Option.map_some', Option.some.injEq] at h
    subst h
    exact hg v

theorem ite_is {c : Prop} [Decidable c] {a b : Option State} {s' : State} {x : Int}
    (ha : a = some s' → s'.is = x) (hb : b = some s' → s'.is = x)
    (h : (if c then a else b) = some s') : s'.is = x := by
  by_cases hc : c
  · rw [if_pos hc] at h
    exact ha h
  · rw [if_neg hc] at h
    exact hb h

theorem dispatch_is {s s' : State} (h : dispatch s = some s') : s'.is = s.is := by
  revert h
  unfold dispatch
  repeat' refine ite_is ?_ ?_
  all_goals first
    | exact some_is rfl
    | exact map_is (fun _ => rfl)

/-- The opcode variable after a cycle is the one the fetch of that cycle
produced. -/
theorem cycle_is {s f s' : State} (hf : fetch s = some f) (h : cycle s = some s') :
    s'.is = f.is := by
  simp only [cycle, hf, Option.some_bind, Option.bind_eq_some] at h
  obtain ⟨s1, h1, h2⟩ := h
  rw [dispatch_is h2, operand_is h1]

theorem toChar_of_char {v : Int} (h : -128 ≤ v ∧ v ≤ 127) : toChar v = v := by
  unfold toChar
  omega

theorem readMem_set_same {memory : List Int} {i : Int} (v : Int)
    (hlen : memory.length = 16) (h0 : 0 ≤ i) (h1 : i < 16) :
    readMem (memory.set i.toNat v) i = some v := by
  have hi : i.toNat < memory.length := by omega
  simp [readMem, h0, h1, hi]

/-- C8: in a state with ip <= 13 whose cell ip holds STORE0 (11) or STORE1
(12) with operand ip + 2, the cycle stores the register (converted to a
cell) at cell ip + 2 and goes on, and the following cycle fetches exactly
that stored value as its opcode, which is the register's value whenever the
register fits a cell; the program "3 3 3 3 11 6 0" halts with r0 = 4 and
r1 = 1. -/
theorem store_then_fetch (s : State) (op : Int) (hlen : s.memory.length = 16)
    (hip : s.ip ≤ 13) (hop : readMem s.memory s.ip = some op) (h12 : op = 11 ∨ op = 12)
    (hopnd : readMem s.memory (s.ip + 1) = some (s.ip + 2)) :
    (∃ s1, cycle s = some s1 ∧ s1.is ≠ 0 ∧ s1.ip = s.ip + 2 ∧
      readMem s1.memory (s.ip + 2) = some (toChar (if op = 11 then s.r0 else s.r1)) ∧
      (∃ f, fetch s1 = some f ∧ f.is = toChar (if op = 11 then s.r0 else s.r1)) ∧
      (∀ s2, cycle s1 = some s2 → s2.is = toChar (if op = 11 then s.r0 else s.r1))) ∧
    ((-128 ≤ (if op = 11 then s.r0 else s.r1) ∧ (if op = 11 then s.r0 else s.r1) ≤ 127) →
      toChar (if op = 11 then s.r0 else s.r1) = (if op = 11 then s.r0 else s.r1)) ∧
    run 20 (bytes "3 3 3 3 11 6 0")
      = .finished ⟨8, 0, 4, 1, 6, padded [3, 3, 3, 3, 11, 6, 4], ['\n']⟩ := by
  refine ⟨?_, toChar_of_char, by decide⟩
  have hb := readMem_bounds hop
  have e : s.ip + 1 + 1 = s.ip + 2 := by ring
  have h0 : 0 ≤ s.ip + 2 := by omega
  have h1 : s.ip + 2 < 16 := by omega
  have key : ∀ reg : Int, ∀ s1 : State,
      s1.memory = s.memory.set (s.ip + 2).toNat (toChar reg) → s1.ip = s.ip + 2 →
      readMem s1.memory (s.ip + 2) = some (toChar reg) ∧
      (∃ f, fetch s1 = some f ∧ f.is = toChar reg) ∧
      (∀ s2, cycle s1 = some s2 → s2.is = toChar reg) := by
    intro reg s1 hm hi
    have hr : readMem s1.memory s1.ip = some (toChar reg) := by
      rw [hm, hi]
      exact readMem_set_same _ hlen h0 h1
    refine ⟨by rw [← hi]; exact hr, ⟨_, fetch_of_read hr, rfl⟩, ?_⟩
    intro s2 h2
    rw [cycle_is (fetch_of_read hr) h2]
  rcases h12 with rfl | rfl
  · refine ⟨{ s with is := 11, data := s.ip + 2, ip := s.ip + 2,
                     memory := s.memory.set (s.ip + 2).toNat (toChar s.r0) }, ?_, by simp, rfl, ?_⟩
    · rw [fetch_operand hop (by decide) hopnd]
      simp [dispatch, writeMem, h0, h1, e]
    · exact key s.r0 _ rfl rfl
  · refine ⟨{ s with is := 12, data := s.ip + 2, ip := s.ip + 2,
                     memory := s.memory.set (s.ip + 2).toNat (toChar s.r1) }, ?_, by simp, rfl, ?_⟩
    · rw [fetch_operand hop (by decide) hopnd]
      simp [dispatch, writeMem, h0, h1, e]
    · exact key s.r1 _ rfl rfl

theorem store_then_fetch_witness :
    (∃ s1, cycle ⟨4, 3, 4, 0, 0, padded [3, 3, 3, 3, 11, 6, 0], []⟩ = some s1 ∧
      s1.is ≠ 0 ∧ s1.ip = 4 + 2 ∧
      readMem s1.memory (4 + 2) = some (toChar (if (11 : Int) = 11 then 4 else 0)) ∧
      (∃ f, fetch s1 = some f ∧ f.is = toChar (if (11 : Int) = 11 then 4 else 0)) ∧
      (∀ s2, cycle s1 = some s2 → s2.is = toChar (if (11 : Int) = 11 then 4 else 0))) ∧
    ((-128 ≤ (if (11 : Int) = 11 then (4 : Int) else 0) ∧
        (if (11 : Int) = 11 then (4 : Int) else 0) ≤ 127) →
      toChar (if (11 : Int) = 11 then 4 else 0) = (if (11 : Int) = 11 then 4 else 0)) ∧
    run 20 (bytes "3 3 3 3 11 6 0")
      = .finished ⟨8, 0, 4, 1, 6, padded [3, 3, 3, 3, 11, 6, 4], ['\n']⟩ :=
  store_then_fetch ⟨4, 3, 4, 0, 0, padded [3, 3, 3, 3, 11, 6, 0], []⟩ 11
    (by decide) (by decide) (by decide) (by decide) (by decide)

/-! ## Tokens -/

theorem pending_nil (cur : List Nat) :
    pending cur [] = if cur = [] then [] else [cur] := by
  cases cur <;> simp [pending, List.splitOnP_nil]

theorem pending_separator (cur : List Nat) {b : Nat} (rest : List Nat)
    (hb : isSeparator b = true) :
    pending cur (b :: rest) = (if cur = [] then [] else [cur]) ++ pending [] rest := by
  have hid : (fun t : List Nat => t) = id := rfl
  cases cur <;> simp [pending, List.splitOnP_cons, hb, hid]

theorem pending_digit (cur : List Nat) {b : Nat} (rest : List Nat)
    (hb : isSeparator b = false) :
    pending cur (b :: rest) = pending (cur ++ [b]) rest := by
  simp only [pending, List.splitOnP_cons, hb, Bool.false_eq_true, if_false,
    List.modifyHead_modifyHead]
  congr 2
  funext t
  simp

theorem tokens_eq_pending (text : List Nat) : tokens text = pending [] text := by
  have hid : (fun t : List Nat => t) = id := rfl
  simp [tokens, pending, hid]


theorem pending_all_digits (text : List Nat) :
    ∀ cur : List Nat, (∀ b ∈ cur, isdigit (b : Int) = true) →
      ∀ t ∈ pending cur text, ∀ b ∈ t, isdigit (b : Int) = true := by
  induction text with
  | nil =>
    intro cur hcur t ht
    rw [pending_nil] at ht
    by_cases hc : cur = []
    · simp [hc] at ht
    · simp only [hc, if_false, List.mem_singleton] at ht
      subst ht
      exact hcur
  | cons c rest ih =>
    intro cur hcur t ht
    by_cases hs : isSeparator c = true
    · rw [pending_separator cur rest hs, List.mem_append] at ht
      rcases ht with ht | ht
      · by_cases hc : cur = []
        · simp [hc] at ht
        · simp only [hc, if_false, List.mem_singleton] at ht
          subst ht
          exact hcur
      · exact ih [] (by simp) t ht
    · have hs' : isSeparator c = false := by simpa using hs
      rw [pending_digit cur rest hs'] at ht
      refine ih (cur ++ [c]) ?_ t ht
      intro b hb
      rw [List.mem_append, List.mem_singleton] at hb
      rcases hb with hb | rfl
      · exact hcur b hb
      · simpa [isSeparator] using hs'

theorem tokens_all_digits (text : List Nat) :
    ∀ t ∈ tokens text, ∀ b ∈ t, isdigit (b : Int) = true := by
  rw [tokens_eq_pending]
  exact pending_all_digits text [] (by simp)

/-- An unfinished token is a prefix of the first token still to come, so it
is no longer than that token. -/
theorem pending_head_length (text : List Nat) :
    ∀ cur : List Nat, cur ≠ [] → ∃ t ∈ pending cur text, cur.length ≤ t.length := by
  induction text with
  | nil =>
    intro cur hc
    exact ⟨cur, by simp [pending_nil, hc], le_refl _⟩
  | cons c rest ih =>
    intro cur hc
    by_cases hs : isSeparator c = true
    · exact ⟨cur, by simp [pending_separator cur rest hs, hc], le_refl _⟩
    · have hs' : isSeparator c = false := by simpa using hs
      obtain ⟨t, ht, hl⟩ := ih (cur ++ [c]) (by simp)
      refine ⟨t, by rw [pending_digit cur rest hs']; exact ht, ?_⟩
      simp only [List.length_append, List.length_singleton] at hl
      omega

/-! ## The loader loop flushes the tokens in order -/

theorem flush_instruct {st st' : Loader} (h : flush st = .ok st') : st'.instruct = [] := by
  unfold flush at h
  split_ifs at h
  split at h
  · simp at h
  · simp only at h
    split_ifs at h
    cases h
    rfl

theorem loaderLoop_eq_place (text : List Nat) :
    ∀ (cur : List Nat) (mp : Nat) (memory : List Int), (∀ b ∈ text, b ≠ 0) →
      (∀ t ∈ pending cur text, t.length ≤ 11) →
      loaderLoop text ⟨cur.map Int.ofNat, mp, memory⟩ = place (pending cur text) mp memory := by
  induction text with
  | nil =>
    intro cur mp memory _ _
    rw [pending_nil]
    by_cases hc : cur = []
    · subst hc
      simp [loaderLoop, loaderBody, isdigit, EOF, Loader.instruct_i, place]
    · have hpos : 0 < cur.length := List.length_pos.mpr hc
      simp only [loaderLoop, loaderBody, isdigit, EOF, Loader.instruct_i, hc, if_false, place,
        List.length_map, hpos, if_true]
      simp only [show (decide ((48 : Int) ≤ -1) && decide ((-1 : Int) ≤ 57)) = false by decide,
        Bool.false_eq_true, if_false]
  | cons c rest ih =>
    intro cur mp memory hnul hlen
    have hc0 : ¬ ((c : Int) = 0) := by
      have := hnul c (by simp)
      omega
    have hrest : ∀ b ∈ rest, b ≠ 0 := fun b hb => hnul b (by simp [hb])
    by_cases hs : isSeparator c = true
    · have hd : isdigit (c : Int) = false := by simpa [isSeparator] using hs
      rw [pending_separator cur rest hs] at hlen ⊢
      have hlen' : ∀ t ∈ pending [] rest, t.length ≤ 11 :=
        fun t ht => hlen t (List.mem_append_right _ ht)
      by_cases hc : cur = []
      · subst hc
        simp only [loaderLoop, hc0, if_false, loaderBody, hd, Bool.false_eq_true,
          Loader.instruct_i, List.map_nil, List.length_nil, lt_self_iff_false, if_true,
          List.nil_append, gt_iff_lt]
        exact ih [] mp memory hrest hlen'
      · have hpos : 0 < cur.length := List.length_pos.mpr hc
        simp only [loaderLoop, hc0, if_false, loaderBody, hd, Bool.false_eq_true,
          Loader.instruct_i, List.length_map, hpos, if_true, hc, List.singleton_append, place,
          gt_iff_lt]
        cases hf : flush ⟨cur.map Int.ofNat, mp, memory⟩ with
        | error e => rfl
        | ok st =>
          have hi := flush_instruct hf
          have hst : st = ⟨([] : List Nat).map Int.ofNat, st.mp, st.memory⟩ := by
            cases st
            simp only [List.map_nil, Loader.mk.injEq, and_self, and_true]
            exact hi
          simp only
          rw [hst]
          exact ih [] st.mp st.memory hrest hlen'
    · have hs' : isSeparator c = false := by simpa using hs
      have hd : isdigit (c : Int) = true := by simpa [isSeparator] using hs'
      rw [pending_digit cur rest hs'] at hlen ⊢
      obtain ⟨t, ht, hl⟩ := pending_head_length rest (cur ++ [c]) (by simp)
      have h11 := hlen t ht
      simp only [List.length_append, List.length_singleton] at hl
      have h12 : cur.length < 12 := by omega
      simp only [loaderLoop, hc0, if_false, loaderBody, hd, if_true, Loader.instruct_i,
        List.length_map, h12]
      have := ih (cur ++ [c]) mp memory hrest hlen
      simpa using this


/-! ## Flushing a valid token -/

theorem isdigit_ge {b : Nat} (h : isdigit (b : Int) = true) : 48 ≤ b := by
  simp only [isdigit, Bool.and_eq_true, decide_eq_true_eq] at h
  omega

theorem foldl_digits (t : List Nat) (hd : ∀ b ∈ t, isdigit (b : Int) = true) :
    ∀ acc : Nat,
      (t.map Int.ofNat).foldl (fun a c => 10 * a + (c - 48)) (acc : Int)
        = ((t.foldl (fun a b => 10 * a + (b - 48)) acc : Nat) : Int) := by
  induction t with
  | nil => intro acc; rfl
  | cons b t ih =>
    intro acc
    have hb : 48 ≤ b := isdigit_ge (hd b (by simp))
    have e : (10 * (acc : Int) + (Int.ofNat b - 48)) = ((10 * acc + (b - 48) : Nat) : Int) := by
      simp only [Int.ofNat_eq_coe]
      omega
    simp only [List.map_cons, List.foldl_cons, e]
    exact ih (fun x hx => hd x (by simp [hx])) _

theorem atoi_digits (t : List Nat) (hd : ∀ b ∈ t, isdigit (b : Int) = true)
    (hv : (tokenValue t : Int) ≤ INT_MAX) :
    atoi (t.map Int.ofNat) = some (tokenValue t : Int) := by
  have h := foldl_digits t hd 0
  simp only [Nat.cast_zero] at h
  simp only [atoi, h]
  simp only [tokenValue] at hv ⊢
  simp [hv]

/-- A token of at most 11 digits with value at most 15 becomes cell `mp`. -/
theorem flush_valid (t : List Nat) (mp : Nat) (memory : List Int)
    (hd : ∀ b ∈ t, isdigit (b : Int) = true) (hl : t.length ≤ 11) (hv : tokenValue t ≤ 15)
    (hmp : mp < 16) (hmem : memory.length = 16) :
    flush ⟨t.map Int.ofNat, mp, memory⟩
      = .ok ⟨[], mp + 1, memory.set mp (tokenValue t : Int)⟩ := by
  have hat := atoi_digits t hd (by simp only [INT_MAX]; omega)
  have hc : toChar (tokenValue t : Int) = (tokenValue t : Int) :=
    toChar_of_char (by omega)
  have hne : ¬ mp = 16 := by omega
  have h12 : ¬ 12 ≤ t.length := by omega
  have hlt : mp < memory.length := by omega
  have h0 : ¬ ((tokenValue t : Int) < 0) := by omega
  have h15 : ¬ ((tokenValue t : Int) > 15) := by omega
  simp [flush, Loader.instruct_i, hne, h12, hat, hc, hlt, h0, h15]

theorem flush_full (ins : List Int) (memory : List Int) :
    flush ⟨ins, 16, memory⟩ = .error .tooBig := by
  simp [flush]

theorem set_fresh_cell (pre : List Int) (k : Nat) (v : Int) :
    (pre ++ List.replicate (k + 1) 0).set pre.length v = (pre ++ [v]) ++ List.replicate k 0 := by
  simp [List.set_append, List.replicate_succ]

/-- Valid tokens that fit are written one after the other behind the cells
already filled. -/
theorem place_valid (ts : List (List Nat)) :
    ∀ pre : List Int,
      (∀ t ∈ ts, (∀ b ∈ t, isdigit (b : Int) = true) ∧ t.length ≤ 11 ∧ tokenValue t ≤ 15) →
      pre.length + ts.length ≤ 16 →
      place ts pre.length (pre ++ List.replicate (16 - pre.length) 0)
        = .loaded (padded (pre ++ ts.map fun t => (tokenValue t : Int))) := by
  induction ts with
  | nil =>
    intro pre _ _
    simp [place, padded]
  | cons t ts ih =>
    intro pre hval hfit
    simp only [List.length_cons] at hfit
    obtain ⟨hd, hl, hv⟩ := hval t (by simp)
    have hmem : (pre ++ List.replicate (16 - pre.length) (0 : Int)).length = 16 := by
      simp only [List.length_append, List.length_replicate]
      omega
    have hk : 16 - pre.length = (16 - (pre.length + 1)) + 1 := by omega
    rw [place, flush_valid t pre.length _ hd hl hv (by omega) hmem]
    simp only
    rw [hk, set_fresh_cell]
    have := ih (pre ++ [(tokenValue t : Int)]) (fun u hu => hval u (by simp [hu]))
      (by simp only [List.length_append, List.length_singleton]; omega)
    simp only [List.length_append, List.length_singleton] at this
    rw [this]
    simp

/-- When more tokens come than cells are left and those that fit are valid,
the token after the sixteenth cell stops the loader. -/
theorem place_too_big (ts : List (List Nat)) :
    ∀ (mp : Nat) (memory : List Int), memory.length = 16 → mp ≤ 16 → 16 - mp < ts.length →
      (∀ t ∈ ts.take (16 - mp),
        (∀ b ∈ t, isdigit (b : Int) = true) ∧ t.length ≤ 11 ∧ tokenValue t ≤ 15) →
      place ts mp memory = .tooBig := by
  induction ts with
  | nil =>
    intro mp memory _ _ hlt _
    simp at hlt
  | cons t ts ih =>
    intro mp memory hmem hmp hlt hval
    simp only [List.length_cons] at hlt
    by_cases h16 : mp = 16
    · subst h16
      simp [place, flush_full]
    · have hk : 16 - mp = (16 - (mp + 1)) + 1 := by omega
      rw [hk, List.take_succ_cons] at hval
      obtain ⟨hd, hl, hv⟩ := hval t (by simp)
      rw [place, flush_valid t mp memory hd hl hv (by omega) hmem]
      simp only
      exact ih (mp + 1) _ (by simp [hmem]) (by omega) (by omega)
        (fun u hu => hval u (List.mem_cons_of_mem _ hu))

theorem load_eq_place (text : List Nat) (hnul : ∀ b ∈ text, b ≠ 0)
    (hlen : ∀ t ∈ tokens text, t.length ≤ 11) :
    load text = place (tokens text) 0 (List.replicate 16 0) := by
  rw [tokens_eq_pending] at hlen ⊢
  exact loaderLoop_eq_place text [] 0 (List.replicate 16 0) hnul hlen

theorem load_valid (text : List Nat) (hnul : ∀ b ∈ text, b ≠ 0)
    (hcount : (tokens text).length ≤ 16)
    (htok : ∀ t ∈ tokens text, t.length ≤ 11 ∧ tokenValue t ≤ 15) :
    load text = .loaded (padded ((tokens text).map fun t => (tokenValue t : Int))) := by
  rw [load_eq_place text hnul (fun t ht => (htok t ht).1)]
  have := place_valid (tokens text) []
    (fun t ht => ⟨tokens_all_digits text t ht, (htok t ht).1, (htok t ht).2⟩)
    (by simpa using hcount)
  simpa using this


/-! ## The loader's contract -/

/-- C1: a text without a zero byte whose tokens are at most 16, each of at
most 11 digits and of value at most 15, loads, and memory is the token
values in order followed by zeros up to 16 cells; hence two such texts with
the same token values (whatever their separators and leading zeros) load the
same memory. -/
theorem loader_correct (text : List Nat) (hnul : ∀ b ∈ text, b ≠ 0)
    (hcount : (tokens text).length ≤ 16)
    (htok : ∀ t ∈ tokens text, t.length ≤ 11 ∧ tokenValue t ≤ 15) :
    load text = .loaded (padded ((tokens text).map fun t => (tokenValue t : Int))) ∧
    (padded ((tokens text).map fun t => (tokenValue t : Int))).length = 16 ∧
    ∀ other : List Nat, (∀ b ∈ other, b ≠ 0) → (tokens other).length ≤ 16 →
      (∀ t ∈ tokens other, t.length ≤ 11 ∧ tokenValue t ≤ 15) →
      (tokens other).map tokenValue = (tokens text).map tokenValue →
      load other = load text := by
  refine ⟨load_valid text hnul hcount htok, ?_, ?_⟩
  · simp only [padded, List.length_append, List.length_map, List.length_replicate]
    omega
  · intro other h1 h2 h3 h4
    rw [load_valid text hnul hcount htok, load_valid other h1 h2 h3]
    have e : ∀ l : List (List Nat),
        (l.map fun t => (tokenValue t : Int)) = (l.map tokenValue).map Int.ofNat := by
      intro l
      simp
    rw [e, e, h4]

theorem loader_correct_witness :
    load (bytes "007,x15\n 3") = .loaded (padded [7, 15, 3]) ∧
    load (bytes "7 15 3") = load (bytes "007,x15\n 3") :=
  ⟨(loader_correct (bytes "007,x15\n 3") (by decide) (by decide) (by decide)).1,
    (loader_correct (bytes "007,x15\n 3") (by decide) (by decide) (by decide)).2.2
      (bytes "7 15 3") (by decide) (by decide) (by decide) (by decide)⟩

/-- C6: the code on tokens above 15. The range test of lines 68-76 reads
the cell back after the conversion to `char`, so the token "256" is accepted
as cell 0 and the token "128" is reported as negative; "16" and "272" are
reported as too large. -/
theorem oversized_token_accepted :
    tokens (bytes "256") = [[50, 53, 54]] ∧ tokenValue [50, 53, 54] = 256 ∧
    load (bytes "256") = .loaded (List.replicate 16 0) ∧
    load (bytes "128") = .negative ∧
    load (bytes "16") = .tooLarge ∧ load (bytes "272") = .tooLarge := by
  decide

/-- C7, as stated, fails: the first text has 17 tokens, the first 16 of them
0, and loads (a zero byte ends the loader before the 17th token); the second
has 17 tokens, the first 16 of them 0, and the 13 digits of its 17th token run
past the token buffer before any flush. -/
theorem size_limit_counterexample :
    (tokens (bytes "0 0 0 0 0 0 0 0 0 0 0 0 0 0 0 0 " ++ [0] ++ bytes "0 ")).length = 17 ∧
    (∀ t ∈ (tokens (bytes "0 0 0 0 0 0 0 0 0 0 0 0 0 0 0 0 " ++ [0] ++ bytes "0 ")).take 16,
      tokenValue t ≤ 15) ∧
    load (bytes "0 0 0 0 0 0 0 0 0 0 0 0 0 0 0 0 " ++ [0] ++ bytes "0 ")
      = .loaded (List.replicate 16 0) ∧
    load (bytes "0 0 0 0 0 0 0 0 0 0 0 0 0 0 0 0 " ++ [0] ++ bytes "0 ") ≠ .tooBig ∧
    (tokens (bytes "0 0 0 0 0 0 0 0 0 0 0 0 0 0 0 0 1234567890123 ")).length = 17 ∧
    (∀ t ∈ (tokens (bytes "0 0 0 0 0 0 0 0 0 0 0 0 0 0 0 0 1234567890123 ")).take 16,
      tokenValue t ≤ 15) ∧
    load (bytes "0 0 0 0 0 0 0 0 0 0 0 0 0 0 0 0 1234567890123 ") = .undefined ∧
    load (bytes "0 0 0 0 0 0 0 0 0 0 0 0 0 0 0 0 1234567890123 ") ≠ .tooBig := by
  decide

/-- C7, amended: for a text without a zero byte whose tokens have at most 11
digits and whose first 16 tokens have value at most 15, the loader fails
with "program too big" when there are 17 tokens or more, whatever the value
of the 17th, and loads the 16 values when there are exactly 16 tokens. -/
theorem program_size_limit (text : List Nat) (hnul : ∀ b ∈ text, b ≠ 0)
    (hlen : ∀ t ∈ tokens text, t.length ≤ 11)
    (hfirst : ∀ t ∈ (tokens text).take 16, tokenValue t ≤ 15) :
    (17 ≤ (tokens text).length → load text = .tooBig) ∧
    ((tokens text).length = 16 →
      load text = .loaded ((tokens text).map fun t => (tokenValue t : Int))) := by
  constructor
  · intro h17
    rw [load_eq_place text hnul hlen]
    refine place_too_big (tokens text) 0 _ (by simp) (by omega) (by omega) ?_
    intro t ht
    exact ⟨tokens_all_digits text t (List.mem_of_mem_take ht),
      hlen t (List.mem_of_mem_take ht), hfirst t ht⟩
  · intro h16
    have htake : (tokens text).take 16 = tokens text := by
      rw [← h16, List.take_length]
    rw [htake] at hfirst
    rw [load_valid text hnul (by omega) (fun t ht => ⟨hlen t ht, hfirst t ht⟩)]
    simp [padded, h16]

theorem program_size_limit_witness :
    load (bytes "1 2 3 4 5 6 7 8 9 10 11 12 13 14 15 0 99") = .tooBig ∧
    load (bytes "1 2 3 4 5 6 7 8 9 10 11 12 13 14 15 0")
      = .loaded [1, 2, 3, 4, 5, 6, 7, 8, 9, 10, 11, 12, 13, 14, 15, 0] :=
  ⟨(program_size_limit (bytes "1 2 3 4 5 6 7 8 9 10 11 12 13 14 15 0 99")
      (by decide) (by decide) (by decide)).1 (by decide),
    (program_size_limit (bytes "1 2 3 4 5 6 7 8 9 10 11 12 13 14 15 0")
      (by decide) (by decide) (by decide)).2 (by decide)⟩


/-! ## Sequences of cycles -/

theorem cycles_add (m n : Nat) : ∀ s : State,
    cycles (m + n) s = (cycles m s).bind (cycles n) := by
  induction m with
  | zero => intro s; simp [cycles]
  | succ m ih =>
    intro s
    rw [Nat.add_right_comm, cycles, cycles]
    cases cycle s with
    | none => rfl
    | some s1 => exact ih s1

theorem exec_add (m n : Nat) : ∀ s s' : State, exec m s = .running s' →
    exec (m + n) s = exec n s' := by
  induction m with
  | zero =>
    intro s s' h
    simp only [exec, Outcome.running.injEq] at h
    simp [h]
  | succ m ih =>
    intro s s' h
    rw [Nat.add_right_comm]
    cases hc : cycle s with
    | none => simp [exec, hc] at h
    | some s1 =>
      by_cases h0 : s1.is ≠ 0
      · simp only [exec, hc] at h ⊢
        rw [if_pos h0] at h ⊢
        exact ih s1 s' h
      · simp [exec, hc, h0] at h

theorem exec_running_cycles (n : Nat) : ∀ s s' : State, exec n s = .running s' →
    cycles n s = some s' := by
  induction n with
  | zero =>
    intro s s' h
    simp only [exec, Outcome.running.injEq] at h
    simp [cycles, h]
  | succ n ih =>
    intro s s' h
    cases hc : cycle s with
    | none => simp [exec, hc] at h
    | some s1 =>
      by_cases h0 : s1.is ≠ 0
      · simp only [exec, hc] at h
        rw [if_pos h0] at h
        simpa [cycles, hc] using ih s1 s' h
      · simp [exec, hc, h0] at h

theorem exec_halted_cycles (n : Nat) : ∀ s s' : State, exec n s = .halted s' →
    ∃ m, m ≤ n ∧ cycles m s = some s' ∧ s'.is = 0 := by
  induction n with
  | zero =>
    intro s s' h
    simp [exec] at h
  | succ n ih =>
    intro s s' h
    cases hc : cycle s with
    | none => simp [exec, hc] at h
    | some s1 =>
      by_cases h0 : s1.is ≠ 0
      · simp only [exec, hc] at h
        rw [if_pos h0] at h
        obtain ⟨m, hm, hcm, hz⟩ := ih s1 s' h
        exact ⟨m + 1, by omega, by simp [cycles, hc, hcm], hz⟩
      · simp only [exec, hc] at h
        rw [if_neg h0, Outcome.halted.injEq] at h
        subst h
        exact ⟨1, by omega, by simp [cycles, hc], by simpa using h0⟩

/-! ## Implicit halt -/

theorem cycle_past_end (s : State) (h : s.ip > 15) : cycle s = some { s with is := 0 } := by
  simp [cycle, fetch, h, operand, dispatch]

/-- A no-operand opcode 1..7 changes neither ip nor memory. -/
theorem dispatch_simple (s : State) (h1 : 1 ≤ s.is) (h7 : s.is ≤ 7) :
    ∃ s', dispatch s = some s' ∧ s'.ip = s.ip ∧ s'.memory = s.memory ∧ s'.is = s.is := by
  have h : s.is = 1 ∨ s.is = 2 ∨ s.is = 3 ∨ s.is = 4 ∨ s.is = 5 ∨ s.is = 6 ∨ s.is = 7 := by
    omega
  rcases h with h | h | h | h | h | h | h <;> simp [dispatch, h]

theorem cycle_simple (s : State) (hlen : s.memory.length = 16)
    (hcells : ∀ x ∈ s.memory, 1 ≤ x ∧ x ≤ 7) (h0 : 0 ≤ s.ip) (h15 : s.ip ≤ 15) :
    ∃ s', cycle s = some s' ∧ s'.ip = s.ip + 1 ∧ s'.memory = s.memory ∧ s'.is ≠ 0 ∧
      readMem s.memory s.ip = some s'.is := by
  obtain ⟨v, hv⟩ := readMem_defined (i := s.ip) hlen h0 (by omega)
  have hmem : v ∈ s.memory := by
    have hb : 0 ≤ s.ip ∧ s.ip < 16 := ⟨h0, by omega⟩
    simp only [readMem, hb, and_self, if_true] at hv
    exact List.getElem?_mem hv
  obtain ⟨hv1, hv7⟩ := hcells v hmem
  have hop : operand { s with is := v, ip := s.ip + 1 } = some { s with is := v, ip := s.ip + 1 } := by
    have : ¬ v > 7 := by omega
    simp [operand, this]
  obtain ⟨s', hd, hip, hm, his⟩ :=
    dispatch_simple { s with is := v, ip := s.ip + 1 } (by simpa using hv1) (by simpa using hv7)
  refine ⟨s', ?_, hip, hm, ?_, ?_⟩
  · simp [cycle, fetch_of_read hv, hop, hd]
  · rw [his]
    simp only
    omega
  · rw [his]
    exact hv

theorem simple_cycles (k : Nat) : ∀ s : State, s.memory.length = 16 →
    (∀ x ∈ s.memory, 1 ≤ x ∧ x ≤ 7) → 0 ≤ s.ip → s.ip + k ≤ 16 →
    ∃ s', cycles k s = some s' ∧ exec k s = .running s' ∧ s'.ip = s.ip + k ∧
      s'.memory = s.memory := by
  induction k with
  | zero =>
    intro s _ _ _ _
    exact ⟨s, rfl, rfl, by simp, rfl⟩
  | succ k ih =>
    intro s hlen hcells h0 hk
    obtain ⟨s1, hc, hip, hm, his, _⟩ := cycle_simple s hlen hcells h0 (by omega)
    obtain ⟨s', h1, h2, h3, h4⟩ := ih s1 (by rw [hm]; exact hlen) (by rw [hm]; exact hcells)
      (by omega) (by rw [hip]; push_cast at hk ⊢; omega)
    refine ⟨s', by simp [cycles, hc, h1], by simp [exec, hc, his, h2], ?_, by rw [h4, hm]⟩
    rw [h3, hip]
    push_cast
    ring


/-- C11: a cycle that starts with ip > 15 takes opcode 0 without reading
memory and ends the loop with registers, memory and output unchanged; on a
16-cell memory of no-operand opcodes 1..7 the k-th cycle (k = 1..16) starts
at ip = k - 1 and executes cell k - 1, the loop is still running after 16
cycles with ip = 16, and the 17th cycle halts without any access outside
0..15; sixteen tokens "3" halt with r0 = 0. -/
theorem implicit_halt (s : State) (memory : List Int) (hs : s.ip > 15)
    (hlen : memory.length = 16) (hcells : ∀ x ∈ memory, 1 ≤ x ∧ x ≤ 7) :
    (cycle s = some { s with is := 0 } ∧ exec 1 s = .halted { s with is := 0 }) ∧
    (∀ k : Nat, k < 16 → ∃ sk sk', cycles k (State.init memory) = some sk ∧
      exec k (State.init memory) = .running sk ∧ sk.ip = k ∧ sk.memory = memory ∧
      cycle sk = some sk' ∧ readMem memory k = some sk'.is ∧ sk'.is ≠ 0) ∧
    (∃ s16, exec 16 (State.init memory) = .running s16 ∧ s16.ip = 16 ∧
      s16.memory = memory ∧
      exec 17 (State.init memory) = .halted { s16 with is := 0 }) ∧
    (∃ sf, run 17 (bytes "3 3 3 3 3 3 3 3 3 3 3 3 3 3 3 3") = .finished sf ∧ sf.r0 = 0) := by
  have hpast := cycle_past_end s hs
  refine ⟨⟨hpast, by simp [exec, hpast]⟩, ?_, ?_, ?_⟩
  · intro k hk
    obtain ⟨sk, h1, h2, h3, h4⟩ := simple_cycles k (State.init memory) hlen hcells
      (by simp [State.init]) (by simp only [State.init]; omega)
    have hip : sk.ip = (k : Int) := by simpa [State.init] using h3
    have hm : sk.memory = memory := by simpa [State.init] using h4
    obtain ⟨sk', hc, _, _, his, hr⟩ := cycle_simple sk (by rw [hm]; exact hlen)
      (by rw [hm]; exact hcells) (by omega) (by omega)
    exact ⟨sk, sk', h1, h2, hip, hm, hc, by rw [← hm, ← hip]; exact hr, his⟩
  · obtain ⟨s16, _, h2, h3, h4⟩ := simple_cycles 16 (State.init memory) hlen hcells
      (by simp [State.init]) (by simp [State.init])
    have hip : s16.ip = 16 := by simpa [State.init] using h3
    have hm : s16.memory = memory := by simpa [State.init] using h4
    refine ⟨s16, h2, hip, hm, ?_⟩
    have hpast16 := cycle_past_end s16 (by omega)
    rw [exec_add 16 1 _ _ h2]
    simp [exec, hpast16]
  · exact ⟨⟨16, 0, 0, 0, 0, List.replicate 16 3, ['\n']⟩, by decide, rfl⟩

theorem implicit_halt_witness :
    (cycle ⟨16, 3, 5, 6, 0, List.replicate 16 4, []⟩
        = some ⟨16, 0, 5, 6, 0, List.replicate 16 4, []⟩ ∧
      exec 1 ⟨16, 3, 5, 6, 0, List.replicate 16 4, []⟩
        = .halted ⟨16, 0, 5, 6, 0, List.replicate 16 4, []⟩) ∧
    (∀ k : Nat, k < 16 → ∃ sk sk', cycles k (State.init (List.replicate 16 4)) = some sk ∧
      exec k (State.init (List.replicate 16 4)) = .running sk ∧ sk.ip = k ∧
      sk.memory = List.replicate 16 4 ∧
      cycle sk = some sk' ∧ readMem (List.replicate 16 4) k = some sk'.is ∧ sk'.is ≠ 0) ∧
    (∃ s16, exec 16 (State.init (List.replicate 16 4)) = .running s16 ∧ s16.ip = 16 ∧
      s16.memory = List.replicate 16 4 ∧
      exec 17 (State.init (List.replicate 16 4)) = .halted { s16 with is := 0 }) ∧
    (∃ sf, run 17 (bytes "3 3 3 3 3 3 3 3 3 3 3 3 3 3 3 3") = .finished sf ∧ sf.r0 = 0) :=
  implicit_halt ⟨16, 3, 5, 6, 0, List.replicate 16 4, []⟩ (List.replicate 16 4)
    (by decide) (by decide) (by decide)


/-! ## The program "0" -/

/-- With no token pending, a text without digits leaves memory as it is. -/
theorem loaderLoop_no_digits (s : List Nat) (hs : ∀ b ∈ s, isdigit (b : Int) = false)
    (mp : Nat) (memory : List Int) :
    loaderLoop s ⟨[], mp, memory⟩ = .loaded memory := by
  induction s with
  | nil => simp [loaderLoop, loaderBody, isdigit, EOF, Loader.instruct_i]
  | cons b rest ih =>
    have hb := hs b (by simp)
    by_cases h0 : (b : Int) = 0
    · simp [loaderLoop, h0]
    · simp only [loaderLoop, h0, if_false, loaderBody, hb, Bool.false_eq_true,
        Loader.instruct_i, List.length_nil, gt_iff_lt, lt_self_iff_false]
      exact ih (fun x hx => hs x (by simp [hx]))

theorem flush_zero_token :
    flush ⟨[48], 0, List.replicate 16 0⟩ = .ok ⟨[], 1, List.replicate 16 0⟩ := by
  rfl

theorem load_halt_only (s : List Nat) (hs : ∀ b ∈ s, isdigit (b : Int) = false) :
    load (bytes "0" ++ s) = .loaded (List.replicate 16 0) := by
  have hb : bytes "0" = [48] := by decide
  have h1 : loaderBody 48 Loader.init = .ok ⟨[48], 0, List.replicate 16 0⟩ := by rfl
  rw [hb, load]
  simp only [List.singleton_append, loaderLoop, Nat.cast_ofNat, OfNat.ofNat_ne_zero, if_false, h1]
  cases s with
  | nil =>
    have h2 : loaderBody EOF ⟨[48], 0, List.replicate 16 0⟩
        = .ok ⟨[], 1, List.replicate 16 0⟩ := by rfl
    simp only [loaderLoop, h2]
  | cons b rest =>
    have hd := hs b (by simp)
    by_cases h0 : (b : Int) = 0
    · simp [loaderLoop, h0]
    · have h2 : loaderBody (b : Int) ⟨[48], 0, List.replicate 16 0⟩
          = .ok ⟨[], 1, List.replicate 16 0⟩ := by
        simp only [loaderBody, hd, Bool.false_eq_true, if_false, Loader.instruct_i,
          List.length_singleton, gt_iff_lt, Nat.lt_one_iff, if_true, flush_zero_token]
      simp only [loaderLoop, h0, if_false, h2]
      exact loaderLoop_no_digits rest (fun x hx => hs x (by simp [hx])) 1 _

/-- C12: for every text s without a decimal digit, the program text "0"
followed by s loads the all-zero memory, halts in its first cycle, writes
exactly "\n" and exits with status 0, as the text "0" alone does. -/
theorem halt_only_trailing_text (s : List Nat) (fuel : Nat)
    (hs : ∀ b ∈ s, isdigit (b : Int) = false) :
    load (bytes "0" ++ s) = .loaded (List.replicate 16 0) ∧
    exec 1 (State.init (List.replicate 16 0))
      = .halted ⟨1, 0, 0, 0, 0, List.replicate 16 0, []⟩ ∧
    run (fuel + 1) (bytes "0" ++ s)
      = .finished ⟨1, 0, 0, 0, 0, List.replicate 16 0, ['\n']⟩ ∧
    stdout (run (fuel + 1) (bytes "0" ++ s)) = some ['\n'] ∧
    exitStatus (run (fuel + 1) (bytes "0" ++ s)) = some 0 ∧
    run (fuel + 1) (bytes "0" ++ s) = run (fuel + 1) (bytes "0") := by
  have hl := load_halt_only s hs
  have hl0 : load (bytes "0") = .loaded (List.replicate 16 0) := by decide
  have hc : cycle (State.init (List.replicate 16 0))
      = some ⟨1, 0, 0, 0, 0, List.replicate 16 0, []⟩ := by decide
  have hr : ∀ text, load text = .loaded (List.replicate 16 0) →
      run (fuel + 1) text = .finished ⟨1, 0, 0, 0, 0, List.replicate 16 0, ['\n']⟩ := by
    intro text h
    simp only [run, h, exec, hc]
    simp
  have h1 := hr _ hl
  refine ⟨hl, by decide, h1, ?_, ?_, ?_⟩
  · rw [h1]; rfl
  · rw [h1]; rfl
  · rw [h1, hr _ hl0]

theorem halt_only_trailing_text_witness :
    load (bytes "0" ++ [32, 0, 120, 10]) = .loaded (List.replicate 16 0) ∧
    exec 1 (State.init (List.replicate 16 0))
      = .halted ⟨1, 0, 0, 0, 0, List.replicate 16 0, []⟩ ∧
    run (5 + 1) (bytes "0" ++ [32, 0, 120, 10])
      = .finished ⟨1, 0, 0, 0, 0, List.replicate 16 0, ['\n']⟩ ∧
    stdout (run (5 + 1) (bytes "0" ++ [32, 0, 120, 10])) = some ['\n'] ∧
    exitStatus (run (5 + 1) (bytes "0" ++ [32, 0, 120, 10])) = some 0 ∧
    run (5 + 1) (bytes "0" ++ [32, 0, 120, 10]) = run (5 + 1) (bytes "0") :=
  halt_only_trailing_text [32, 0, 120, 10] 5 (by decide)


/-! ## The program "3 3 1 13 0" -/

/-- One round of the loop INC0, INC0, ADD, JMP 0: four cycles from ip = 0
lead back to ip = 0 with r0 increased by 2 modulo 16, and the loop condition
holds after each of them. -/
theorem jmp_loop_round (r i d : Int) (h0 : 0 ≤ r) (h15 : r ≤ 15) :
    cycles 4 ⟨0, i, r, 0, d, padded [3, 3, 1, 13, 0], []⟩
      = some ⟨0, 13, (r + 2) % 16, 0, 0, padded [3, 3, 1, 13, 0], []⟩ ∧
    exec 4 ⟨0, i, r, 0, d, padded [3, 3, 1, 13, 0], []⟩
      = .running ⟨0, 13, (r + 2) % 16, 0, 0, padded [3, 3, 1, 13, 0], []⟩ := by
  interval_cases r <;> exact ⟨rfl, rfl⟩

theorem jmp_loop_partial (r i d : Int) (h0 : 0 ≤ r) (h15 : r ≤ 15) (j : Nat) (hj : j < 4) :
    ∃ s, exec j ⟨0, i, r, 0, d, padded [3, 3, 1, 13, 0], []⟩ = .running s := by
  interval_cases j <;> interval_cases r <;> exact ⟨_, rfl⟩

theorem jmp_loop_rounds (k : Nat) :
    ∃ r i : Int, 0 ≤ r ∧ r ≤ 15 ∧
      cycles (4 * k) (State.init (padded [3, 3, 1, 13, 0]))
        = some ⟨0, i, r, 0, 0, padded [3, 3, 1, 13, 0], []⟩ ∧
      exec (4 * k) (State.init (padded [3, 3, 1, 13, 0]))
        = .running ⟨0, i, r, 0, 0, padded [3, 3, 1, 13, 0], []⟩ := by
  induction k with
  | zero => exact ⟨0, 0, by omega, by omega, rfl, rfl⟩
  | succ k ih =>
    obtain ⟨r, i, h0, h15, hc, he⟩ := ih
    obtain ⟨hc4, he4⟩ := jmp_loop_round r i 0 h0 h15
    refine ⟨(r + 2) % 16, 13, by omega, by omega, ?_, ?_⟩
    · rw [Nat.mul_succ, cycles_add, hc]
      exact hc4
    · rw [Nat.mul_succ, exec_add _ _ _ _ he]
      exact he4

/-- C13: the program text "3 3 1 13 0" loads; after any number n of cycles
the loop is still running (opcode 0 has not been fetched), so a run bounded
to n cycles is unfinished; after every fourth cycle ip is 0 again; after the
first three cycles r0 = 2. -/
theorem jmp_loop_never_halts :
    load (bytes "3 3 1 13 0") = .loaded (padded [3, 3, 1, 13, 0]) ∧
    (∀ n : Nat, ∃ s, exec n (State.init (padded [3, 3, 1, 13, 0])) = .running s) ∧
    (∀ n : Nat, ∃ s, run n (bytes "3 3 1 13 0") = .unfinished s) ∧
    (∀ k : Nat, ∃ s, cycles (4 * k) (State.init (padded [3, 3, 1, 13, 0])) = some s ∧
      s.ip = 0) ∧
    cycles 3 (State.init (padded [3, 3, 1, 13, 0]))
      = some ⟨3, 1, 2, 0, 0, padded [3, 3, 1, 13, 0], []⟩ := by
  have hl : load (bytes "3 3 1 13 0") = .loaded (padded [3, 3, 1, 13, 0]) := by decide
  have hrun : ∀ n : Nat, ∃ s, exec n (State.init (padded [3, 3, 1, 13, 0])) = .running s := by
    intro n
    obtain ⟨r, i, h0, h15, _, he⟩ := jmp_loop_rounds (n / 4)
    obtain ⟨s, hs⟩ := jmp_loop_partial r i 0 h0 h15 (n % 4) (Nat.mod_lt _ (by decide))
    refine ⟨s, ?_⟩
    have hn : n = 4 * (n / 4) + n % 4 := (Nat.div_add_mod n 4).symm
    rw [hn, exec_add _ _ _ _ he]
    exact hs
  refine ⟨hl, hrun, ?_, ?_, by decide⟩
  · intro n
    obtain ⟨s, hs⟩ := hrun n
    exact ⟨s, by simp only [run, hl, hs]⟩
  · intro k
    obtain ⟨r, i, _, _, hc, _⟩ := jmp_loop_rounds k
    exact ⟨_, hc, rfl⟩


/-! ## Separators -/

theorem loaderLoop_digits (run : List Nat) (tail : List Nat) (mp : Nat) (memory : List Int)
    (hdig : ∀ b ∈ run, isdigit (b : Int) = true) :
    ∀ cur : List Int, cur.length + run.length ≤ 12 →
      loaderLoop (run ++ tail) ⟨cur, mp, memory⟩
        = loaderLoop tail ⟨cur ++ run.map Int.ofNat, mp, memory⟩ := by
  induction run with
  | nil => intro cur _; simp
  | cons b run ih =>
    intro cur hlen
    simp only [List.length_cons] at hlen
    have hb := hdig b (by simp)
    have hb0 : ¬ ((b : Int) = 0) := by
      have := isdigit_ge hb
      omega
    have h12 : cur.length < 12 := by omega
    rw [List.cons_append, loaderLoop]
    simp only [hb0, if_false, loaderBody, hb, if_true, Loader.instruct_i, h12]
    rw [ih (fun x hx => hdig x (by simp [hx])) (cur ++ [(b : Int)])
      (by simp only [List.length_append, List.length_singleton]; omega)]
    simp

theorem flush_ok {st st' : Loader} (hlen : st.mp < st.memory.length)
    (h : flush st = .ok st') :
    st'.instruct = [] ∧ st'.mp = st.mp + 1 ∧
      ∃ v, atoi st.instruct = some v ∧ 0 ≤ toChar v ∧ toChar v ≤ 15 ∧
        st'.memory = st.memory.set st.mp (toChar v) := by
  unfold flush at h
  split_ifs at h
  split at h
  · simp at h
  · rename_i v hv
    simp only [Nat.add_sub_cancel, List.getElem?_set_self hlen, Option.getD_some] at h
    split_ifs at h with h1 h2
    cases h
    exact ⟨rfl, rfl, v, hv, by omega, by omega, rfl⟩

/-- C14, as stated, fails: in the text "7", byte 0, " 5" the token 7 stands
immediately before the byte 0 but no cell receives it and the text after the
byte 0 is not tokenized; in "16 5" the token before the blank is not made a
cell and the loader does not go on; in the third text the 13 digits before
the blank run past the token buffer. -/
theorem separator_counterexample :
    tokens [55, 0, 32, 53] = [[55], [53]] ∧
    load [55, 0, 32, 53] = .loaded (List.replicate 16 0) ∧
    load (bytes "7 5") = .loaded (padded [7, 5]) ∧
    load (bytes "16 5") = .tooLarge ∧
    load (bytes "0000000000007 ") = .undefined := by
  decide

/-- C14, amended: for a non-empty run of at most 12 digits that starts a
token and is followed by a non-digit byte c other than 0, the flush of lines
59-78 runs once on that run at c and, when it succeeds, the loader goes on
with the text after c; at the end of the stream the pending run is flushed
once and loading ends. A flush that succeeds fills exactly the next cell,
and it succeeds for a run of at most 11 digits and value at most 15 when a
cell is free; otherwise the loader stops with the result of the flush. -/
theorem separator_flushes (run : List Nat) (c : Nat) (rest : List Nat) (mp : Nat)
    (memory : List Int) (hrun : run ≠ []) (hdig : ∀ b ∈ run, isdigit (b : Int) = true)
    (hlen : run.length ≤ 12) (hc : isdigit (c : Int) = false) (hc0 : c ≠ 0)
    (hmem : memory.length = 16) (hmp : mp ≤ 16) :
    loaderLoop (run ++ c :: rest) ⟨[], mp, memory⟩
      = (match flush ⟨run.map Int.ofNat, mp, memory⟩ with
        | .error e => e
        | .ok st => loaderLoop rest st) ∧
    loaderLoop run ⟨[], mp, memory⟩
      = (match flush ⟨run.map Int.ofNat, mp, memory⟩ with
        | .error e => e
        | .ok st => .loaded st.memory) ∧
    (∀ st, flush ⟨run.map Int.ofNat, mp, memory⟩ = .ok st →
      st.instruct = [] ∧ st.mp = mp + 1 ∧
      ∃ v, atoi (run.map Int.ofNat) = some v ∧ 0 ≤ toChar v ∧ toChar v ≤ 15 ∧
        st.memory = memory.set mp (toChar v)) ∧
    (run.length ≤ 11 → tokenValue run ≤ 15 → mp < 16 →
      flush ⟨run.map Int.ofNat, mp, memory⟩
        = .ok ⟨[], mp + 1, memory.set mp (tokenValue run : Int)⟩) := by
  have hpos : 0 < run.length := List.length_pos.mpr hrun
  have hc0' : ¬ ((c : Int) = 0) := by omega
  refine ⟨?_, ?_, ?_, ?_⟩
  · rw [loaderLoop_digits run (c :: rest) mp memory hdig [] (by simpa using hlen)]
    simp only [List.nil_append, loaderLoop, hc0', if_false, loaderBody, hc, Bool.false_eq_true,
      Loader.instruct_i, List.length_map, hpos, gt_iff_lt, if_true]
  · have h := loaderLoop_digits run [] mp memory hdig [] (by simpa using hlen)
    rw [List.append_nil] at h
    rw [h]
    simp only [List.nil_append, loaderLoop, loaderBody, Loader.instruct_i, List.length_map,
      hpos, gt_iff_lt, if_true,
      show isdigit EOF = false by decide, Bool.false_eq_true, if_false]
  · intro st hst
    by_cases hlt : mp < 16
    · have hfree : (⟨run.map Int.ofNat, mp, memory⟩ : Loader).mp
          < (⟨run.map Int.ofNat, mp, memory⟩ : Loader).memory.length := by
        simpa [hmem] using hlt
      exact flush_ok hfree hst
    · have h16 : mp = 16 := by omega
      subst h16
      simp [flush] at hst
  · intro h11 hv hmp
    exact flush_valid run mp memory hdig h11 hv hmp hmem

theorem separator_flushes_witness :
    load (bytes "7,5") = .loaded (padded [7, 5]) ∧
    loaderLoop [55] ⟨[], 0, List.replicate 16 0⟩ = .loaded (padded [7]) ∧
    flush ⟨[55], 0, List.replicate 16 0⟩ = .ok ⟨[], 0 + 1, padded [7]⟩ := by
  have h := separator_flushes [55] 44 [53] 0 (List.replicate 16 0) (by decide) (by decide)
    (by decide) (by decide) (by decide) (by decide) (by decide)
  have hf := h.2.2.2 (by decide) (by decide) (by decide)
  refine ⟨?_, ?_, hf⟩
  · have h1 := h.1
    rw [hf] at h1
    exact h1.trans (by decide)
  · have h2 := h.2.1
    rw [hf] at h2
    exact h2

/-- C15: the code on the token "128". Its digits are read without any sign,
the value 128 becomes -128 in the `char` cell, and the loader stops with
"program contains negative instructions"; "127" is too large. -/
theorem negative_error_reached :
    tokens (bytes "128") = [[49, 50, 56]] ∧
    (∀ b ∈ bytes "128", isdigit (b : Int) = true) ∧
    atoi [49, 50, 56] = some 128 ∧ toChar 128 = -128 ∧
    load (bytes "128") = .negative ∧
    load (bytes "127") = .tooLarge := by
  decide


/-! ## What the loader accepts -/

theorem flush_valid_state {st st' : Loader} (hv : st.Valid) (h : flush st = .ok st') :
    st'.Valid := by
  obtain ⟨hmp, hlen, hcells⟩ := hv
  by_cases h16 : st.mp = 16
  · simp [flush, h16] at h
  · obtain ⟨_, hmp', v, _, h0, h15, hm⟩ := flush_ok (by omega) h
    refine ⟨by omega, by simp [hm, hlen], ?_⟩
    intro x hx
    rw [hm] at hx
    rcases List.mem_or_eq_of_mem_set hx with hx | rfl
    · exact hcells x hx
    · exact ⟨h0, h15⟩

theorem loaderBody_valid_state {ch : Int} {st st' : Loader} (hv : st.Valid)
    (h : loaderBody ch st = .ok st') : st'.Valid := by
  unfold loaderBody at h
  split_ifs at h
  · cases h
    exact hv
  · exact flush_valid_state hv h
  · cases h
    exact hv

theorem flush_error_ne_loaded (st : Loader) (memory : List Int) :
    flush st ≠ .error (.loaded memory) := by
  intro h
  by_cases h1 : st.mp = 16
  · simp [flush, h1] at h
  · by_cases h2 : 12 ≤ st.instruct_i
    · simp [flush, h1, h2] at h
    · simp only [flush, h1, h2, if_false] at h
      split at h
      · simp at h
      · split_ifs at h <;> simp at h

theorem loaderBody_error_ne_loaded (ch : Int) (st : Loader) (memory : List Int) :
    loaderBody ch st ≠ .error (.loaded memory) := by
  intro h
  unfold loaderBody at h
  by_cases hd : isdigit ch = true
  · by_cases h12 : st.instruct_i < 12 <;> simp [hd, h12] at h
  · by_cases hp : st.instruct_i > 0
    · simp only [hd, hp, if_true, if_false, Bool.false_eq_true] at h
      exact flush_error_ne_loaded st memory h
    · simp [hd, hp] at h

theorem loaderLoop_cells (text : List Nat) : ∀ (st : Loader) (memory : List Int), st.Valid →
    loaderLoop text st = .loaded memory →
    memory.length = 16 ∧ ∀ x ∈ memory, 0 ≤ x ∧ x ≤ 15 := by
  induction text with
  | nil =>
    intro st memory hv h
    cases hb : loaderBody EOF st with
    | error e =>
      simp only [loaderLoop, hb] at h
      subst h
      exact absurd hb (loaderBody_error_ne_loaded EOF st memory)
    | ok st' =>
      simp only [loaderLoop, hb, LoadResult.loaded.injEq] at h
      subst h
      exact (loaderBody_valid_state hv hb).2
  | cons b rest ih =>
    intro st memory hv h
    by_cases h0 : (b : Int) = 0
    · simp only [loaderLoop, h0, if_true, LoadResult.loaded.injEq] at h
      subst h
      exact hv.2
    · cases hb : loaderBody (b : Int) st with
      | error e =>
        simp only [loaderLoop, h0, if_false, hb] at h
        subst h
        exact absurd hb (loaderBody_error_ne_loaded (b : Int) st memory)
      | ok st' =>
        simp only [loaderLoop, h0, if_false, hb] at h
        exact ih st' memory (loaderBody_valid_state hv hb) h

/-- Every memory the loader accepts has 16 cells with values in 0..15. -/
theorem load_cells {text : List Nat} {memory : List Int} (h : load text = .loaded memory) :
    memory.length = 16 ∧ ∀ x ∈ memory, 0 ≤ x ∧ x ≤ 15 := by
  refine loaderLoop_cells text Loader.init memory ⟨by decide, by decide, ?_⟩ h
  intro x hx
  have : x = 0 := List.eq_of_mem_replicate hx
  omega


/-! ## Invariants of the engine -/

theorem ite_elim {P : State → Prop} {c : Prop} [Decidable c] {a b : Option State}
    {s' : State} (ha : a = some s' → P s') (hb : b = some s' → P s')
    (h : (if c then a else b) = some s') : P s' := by
  by_cases hc : c
  · rw [if_pos hc] at h
    exact ha h
  · rw [if_neg hc] at h
    exact hb h

theorem some_elim {P : State → Prop} {a s' : State} (ha : P a) (h : some a = some s') :
    P s' := by
  cases h
  exact ha

theorem map_elim {α : Type} {P : State → Prop} {o : Option α} {g : α → State} {s' : State}
    (hg : ∀ v, o = some v → P (g v)) (h : o.map g = some s') : P s' := by
  cases o with
  | none => simp at h
  | some v =>
    simp only [Option.map_some', Option.some.injEq] at h
    subst h
    exact hg v rfl

theorem cycles_invariant {P : State → Prop}
    (hstep : ∀ s s', P s → cycle s = some s' → P s') (n : Nat) :
    ∀ s s', P s → cycles n s = some s' → P s' := by
  induction n with
  | zero =>
    intro s s' hP h
    simp only [cycles, Option.some.injEq] at h
    subst h
    exact hP
  | succ n ih =>
    intro s s' hP h
    cases hc : cycle s with
    | none => simp [cycles, hc] at h
    | some s1 =>
      simp only [cycles, hc, Option.some_bind] at h
      exact ih s1 s' (hstep s s1 hP hc) h

theorem tmod16_bounds (a : Int) : -15 ≤ Int.tmod a 16 ∧ Int.tmod a 16 ≤ 15 := by
  cases a with
  | ofNat m =>
    have h : Int.tmod (Int.ofNat m) 16 = ((m % 16 : Nat) : Int) := rfl
    rw [h]
    omega
  | negSucc m =>
    have h : Int.tmod (Int.negSucc m) 16 = -(((m + 1) % 16 : Nat) : Int) := rfl
    rw [h]
    omega

theorem zero_in_range : (-15 : Int) ≤ 0 ∧ (0 : Int) ≤ 15 := by
  decide

theorem bounded_r0 {s : State} {v : Int} (hB : Bounded s) (hv : -15 ≤ v ∧ v ≤ 15) :
    Bounded { s with r0 := v } :=
  ⟨hB.1, hB.2.1, hB.2.2.1, hv, hB.2.2.2.2⟩

theorem bounded_r1 {s : State} {v : Int} (hB : Bounded s) (hv : -15 ≤ v ∧ v ≤ 15) :
    Bounded { s with r1 := v } :=
  ⟨hB.1, hB.2.1, hB.2.2.1, hB.2.2.2.1, hv⟩

theorem bounded_read {s : State} {i v : Int} (hB : Bounded s)
    (h : readMem s.memory i = some v) : -15 ≤ v ∧ v ≤ 15 := by
  have hb := readMem_bounds h
  simp only [readMem, hb, and_self, if_true] at h
  exact hB.2.1 v (List.getElem?_mem h)

theorem bounded_write {s : State} {i v : Int} {m : List Int} (hB : Bounded s)
    (hv : -15 ≤ v ∧ v ≤ 15) (h : writeMem s.memory i v = some m) :
    Bounded { s with memory := m } := by
  unfold writeMem at h
  split_ifs at h
  simp only [Option.some.injEq] at h
  subst h
  refine ⟨by simp [hB.1], ?_, hB.2.2.1, hB.2.2.2.1, hB.2.2.2.2⟩
  intro x hx
  rcases List.mem_or_eq_of_mem_set hx with hx | rfl
  · exact hB.2.1 x hx
  · rw [toChar_of_char (by omega)]
    exact hv

theorem dispatch_bounded {s s' : State} (hB : Bounded s) (h : dispatch s = some s') :
    Bounded s' := by
  revert h
  unfold dispatch
  repeat' refine ite_elim (P := Bounded) ?_ ?_
  all_goals first
    | exact some_elim (P := Bounded) hB
    | exact some_elim (P := Bounded) (bounded_r0 hB (tmod16_bounds _))
    | exact some_elim (P := Bounded) (bounded_r1 hB (tmod16_bounds _))
    | exact map_elim (P := Bounded) (fun _ _ => hB)
    | exact map_elim (P := Bounded) (fun _ hv => bounded_r0 hB (bounded_read hB hv))
    | exact map_elim (P := Bounded) (fun _ hv => bounded_r1 hB (bounded_read hB hv))
    | exact map_elim (P := Bounded) (fun _ hm => bounded_write hB hB.2.2.2.1 hm)
    | exact map_elim (P := Bounded) (fun _ hm => bounded_write hB hB.2.2.2.2 hm)

theorem cycle_bounded (s s' : State) (hB : Bounded s) (h : cycle s = some s') :
    Bounded s' := by
  simp only [cycle, Option.bind_eq_some] at h
  obtain ⟨s1, hf, s2, ho, hd⟩ := h
  have h1 : Bounded s1 := by
    unfold fetch at hf
    split_ifs at hf
    · simp only [Option.some.injEq] at hf
      subst hf
      exact ⟨hB.1, hB.2.1, zero_in_range, hB.2.2.2.1, hB.2.2.2.2⟩
    · simp only [Option.map_eq_some'] at hf
      obtain ⟨v, hv, rfl⟩ := hf
      exact ⟨hB.1, hB.2.1, bounded_read hB hv, hB.2.2.2.1, hB.2.2.2.2⟩
  have h2 : Bounded s2 := by
    unfold operand at ho
    split_ifs at ho
    · simp only [Option.map_eq_some'] at ho
      obtain ⟨v, _, rfl⟩ := ho
      exact h1
    · simp only [Option.some.injEq] at ho
      subst ho
      exact h1
  exact dispatch_bounded h2 hd

theorem init_bounded {memory : List Int} (hlen : memory.length = 16)
    (hcells : ∀ x ∈ memory, 0 ≤ x ∧ x ≤ 15) : Bounded (State.init memory) := by
  refine ⟨hlen, ?_, zero_in_range, zero_in_range, zero_in_range⟩
  intro x hx
  have := hcells x hx
  exact ⟨by omega, this.2⟩

/-- C16: for a memory the loader accepted, every state the engine reaches
without an access outside 0..15 (after any number of cycles, hence also the
state in which a bounded execution is running or has halted) has its fetched
opcode at most 15; the opcode, both registers and all 16 cells are within
-15..15, also after STORE0 and STORE1 have rewritten cells. -/
theorem opcode_at_most_15 (text : List Nat) (memory : List Int) (n : Nat) (s : State)
    (hload : load text = .loaded memory)
    (hreach : cycles n (State.init memory) = some s) :
    s.is ≤ 15 ∧ Bounded s ∧
    (∀ x ∈ s.memory, -15 ≤ x ∧ x ≤ 15) ∧ (-15 ≤ s.r0 ∧ s.r0 ≤ 15) ∧
    (-15 ≤ s.r1 ∧ s.r1 ≤ 15) ∧
    (∀ m t, (exec m (State.init memory) = .running t ∨
        exec m (State.init memory) = .halted t) → t.is ≤ 15 ∧ Bounded t) := by
  obtain ⟨hlen, hcells⟩ := load_cells hload
  have h0 := init_bounded hlen hcells
  have hB := cycles_invariant cycle_bounded n _ s h0 hreach
  refine ⟨hB.2.2.1.2, hB, hB.2.1, hB.2.2.2.1, hB.2.2.2.2, ?_⟩
  intro m t ht
  rcases ht with ht | ht
  · have := cycles_invariant cycle_bounded m _ t h0 (exec_running_cycles m _ _ ht)
    exact ⟨this.2.2.1.2, this⟩
  · obtain ⟨k, _, hk, _⟩ := exec_halted_cycles m _ _ ht
    have := cycles_invariant cycle_bounded k _ t h0 hk
    exact ⟨this.2.2.1.2, this⟩

theorem opcode_at_most_15_witness :
    load (bytes "5 11 3 0") = .loaded (padded [5, 11, 3, 0]) ∧
    cycles 3 (State.init (padded [5, 11, 3, 0]))
      = some ⟨4, -1, -1, 0, 3, padded [5, 11, 3, -1], []⟩ ∧
    (⟨4, -1, -1, 0, 3, padded [5, 11, 3, -1], []⟩ : State).is ≤ 15 ∧
    Bounded ⟨4, -1, -1, 0, 3, padded [5, 11, 3, -1], []⟩ :=
  ⟨by decide, by decide,
    (opcode_at_most_15 (bytes "5 11 3 0") (padded [5, 11, 3, 0]) 3
      ⟨4, -1, -1, 0, 3, padded [5, 11, 3, -1], []⟩ (by decide) (by decide)).1,
    (opcode_at_most_15 (bytes "5 11 3 0") (padded [5, 11, 3, 0]) 3
      ⟨4, -1, -1, 0, 3, padded [5, 11, 3, -1], []⟩ (by decide) (by decide)).2.1⟩


/-! ## Exit status and output -/

theorem ite_ne_char {c : Prop} [Decidable c] {a b x : Char} (ha : a ≠ x) (hb : b ≠ x) :
    (if c then a else b) ≠ x := by
  by_cases hc : c
  · rw [if_pos hc]
    exact ha
  · rw [if_neg hc]
    exact hb

theorem digitChar_ne_newline (k : Nat) : Nat.digitChar k ≠ '\n' := by
  unfold Nat.digitChar
  repeat' refine ite_ne_char ?_ ?_
  all_goals decide

theorem toDigitsCore_no_newline (fuel : Nat) : ∀ (n : Nat) (ds : List Char), '\n' ∉ ds →
    '\n' ∉ Nat.toDigitsCore 10 fuel n ds := by
  induction fuel with
  | zero =>
    intro n ds h
    simpa [Nat.toDigitsCore] using h
  | succ fuel ih =>
    intro n ds h
    have hd : '\n' ∉ Nat.digitChar (n % 10) :: ds := by
      simp only [List.mem_cons, not_or]
      exact ⟨fun e => digitChar_ne_newline _ e.symm, h⟩
    simp only [Nat.toDigitsCore]
    split_ifs
    · exact hd
    · exact ih _ _ hd

theorem decimal_no_newline (v : Int) : '\n' ∉ decimal v := by
  have h : '\n' ∉ Nat.toDigits 10 v.natAbs := toDigitsCore_no_newline _ _ _ (by simp)
  unfold decimal
  split_ifs
  · simp only [List.mem_cons, not_or]
    exact ⟨by decide, h⟩
  · exact h

theorem dispatch_noNewline {s s' : State} (hN : NoNewline s) (h : dispatch s = some s') :
    NoNewline s' := by
  have hbell : NoNewline { s with out := s.out ++ [Char.ofNat 7] } := by
    simp only [NoNewline, List.mem_append, List.mem_singleton, not_or]
    exact ⟨hN, by decide⟩
  have hprint : ∀ v : Int, NoNewline { s with out := s.out ++ decimal v ++ [' '] } := by
    intro v
    simp only [NoNewline, List.mem_append, List.mem_singleton, not_or]
    exact ⟨⟨hN, decimal_no_newline v⟩, by decide⟩
  revert h
  unfold dispatch
  repeat' refine ite_elim (P := NoNewline) ?_ ?_
  all_goals first
    | exact some_elim (P := NoNewline) hN
    | exact some_elim (P := NoNewline) hbell
    | exact map_elim (P := NoNewline) (fun v _ => hprint v)
    | exact map_elim (P := NoNewline) (fun _ _ => hN)

theorem cycle_noNewline (s s' : State) (hN : NoNewline s) (h : cycle s = some s') :
    NoNewline s' := by
  simp only [cycle, Option.bind_eq_some] at h
  obtain ⟨s1, hf, s2, ho, hd⟩ := h
  have h1 : NoNewline s1 := by
    unfold fetch at hf
    split_ifs at hf
    · simp only [Option.some.injEq] at hf
      subst hf
      exact hN
    · simp only [Option.map_eq_some'] at hf
      obtain ⟨v, _, rfl⟩ := hf
      exact hN
  have h2 : NoNewline s2 := by
    unfold operand at ho
    split_ifs at ho
    · simp only [Option.map_eq_some'] at ho
      obtain ⟨v, _, rfl⟩ := ho
      exact h1
    · simp only [Option.some.injEq] at ho
      subst ho
      exact h1
  exact dispatch_noNewline h2 hd

/-- C17: for every program text and every bound on the cycles, the exit
status is 1 exactly when the loader ends with one of its three errors, and
then the run is that error alone, with no engine state and an empty standard
output; a run that finishes has status 0 and its output is newline-free text
followed by one newline. -/
theorem loader_errors_abort (fuel : Nat) (text : List Nat) :
    (exitStatus (run fuel text) = some 1 ↔
      (load text = .tooBig ∨ load text = .negative ∨ load text = .tooLarge)) ∧
    (∀ e, load text = e → (e = .tooBig ∨ e = .negative ∨ e = .tooLarge) →
      run fuel text = .loadError e ∧ stdout (run fuel text) = some []) ∧
    (∀ s, run fuel text = .finished s →
      exitStatus (run fuel text) = some 0 ∧ (∃ memory, load text = .loaded memory) ∧
      ∃ pre, stdout (run fuel text) = some (pre ++ ['\n']) ∧ '\n' ∉ pre) := by
  refine ⟨?_, ?_, ?_⟩
  · cases hl : load text with
    | loaded memory =>
      simp only [run, hl, false_or, or_self, iff_false]
      cases exec fuel (State.init memory) <;> simp [exitStatus]
    | tooBig => simp [run, hl, exitStatus]
    | negative => simp [run, hl, exitStatus]
    | tooLarge => simp [run, hl, exitStatus]
    | undefined => simp [run, hl, exitStatus]
  · intro e he hcase
    rcases hcase with rfl | rfl | rfl <;> simp [run, he, stdout]
  · intro s hs
    cases hl : load text with
    | loaded memory =>
      simp only [run, hl] at hs
      cases he : exec fuel (State.init memory) with
      | halted t =>
        simp only [he, Run.finished.injEq] at hs
        obtain ⟨k, _, hk, _⟩ := exec_halted_cycles fuel _ _ he
        have hN : NoNewline t :=
          cycles_invariant cycle_noNewline k _ t (by simp [NoNewline, State.init]) hk
        refine ⟨by simp [run, hl, he, exitStatus], ⟨memory, rfl⟩, t.out, ?_, hN⟩
        simp [run, hl, he, stdout]
      | running t => simp [he] at hs
      | undefined => simp [he] at hs
    | tooBig => simp [run, hl] at hs
    | negative => simp [run, hl] at hs
    | tooLarge => simp [run, hl] at hs
    | undefined => simp [run, hl] at hs


/-! ## Conditional jumps -/

/-- C18: in a state with ip <= 14, for every value of r0, JZ (14) ends the
cycle with ip = operand when r0 = 0 and ip = old ip + 2 otherwise, and JNZ
(15) ends it with ip = old ip + 2 when r0 = 0 and ip = operand otherwise, so
on the same r0 and operand exactly one of the two takes the jump; apart from
ip and the opcode and operand variables nothing changes. -/
theorem conditional_jumps (s : State) (hlen : s.memory.length = 16) (hip : s.ip ≤ 14) :
    (readMem s.memory s.ip = some 14 →
      ∃ v, readMem s.memory (s.ip + 1) = some v ∧
        cycle s = some { s with is := 14, data := v,
                                ip := if s.r0 = 0 then v else s.ip + 2 }) ∧
    (readMem s.memory s.ip = some 15 →
      ∃ v, readMem s.memory (s.ip + 1) = some v ∧
        cycle s = some { s with is := 15, data := v,
                                ip := if s.r0 = 0 then s.ip + 2 else v }) := by
  have e : s.ip + 1 + 1 = s.ip + 2 := by ring
  constructor
  · intro hop
    have hb := readMem_bounds hop
    obtain ⟨v, hv⟩ := readMem_defined (i := s.ip + 1) hlen (by omega) (by omega)
    refine ⟨v, hv, ?_⟩
    rw [fetch_operand hop (by decide) hv]
    by_cases h0 : s.r0 = 0 <;> simp [dispatch, h0, e]
  · intro hop
    have hb := readMem_bounds hop
    obtain ⟨v, hv⟩ := readMem_defined (i := s.ip + 1) hlen (by omega) (by omega)
    refine ⟨v, hv, ?_⟩
    rw [fetch_operand hop (by decide) hv]
    by_cases h0 : s.r0 = 0 <;> simp [dispatch, h0, e]

theorem conditional_jumps_witness :
    cycle ⟨2, 3, 0, 4, 0, padded [3, 5, 14, 9], []⟩
      = some ⟨9, 14, 0, 4, 9, padded [3, 5, 14, 9], []⟩ ∧
    cycle ⟨2, 3, 0, 4, 0, padded [3, 5, 15, 9], []⟩
      = some ⟨4, 15, 0, 4, 9, padded [3, 5, 15, 9], []⟩ ∧
    cycle ⟨2, 3, -3, 4, 0, padded [3, 5, 14, 9], []⟩
      = some ⟨4, 14, -3, 4, 9, padded [3, 5, 14, 9], []⟩ ∧
    cycle ⟨2, 3, -3, 4, 0, padded [3, 5, 15, 9], []⟩
      = some ⟨9, 15, -3, 4, 9, padded [3, 5, 15, 9], []⟩ := by
  have h1 := (conditional_jumps ⟨2, 3, 0, 4, 0, padded [3, 5, 14, 9], []⟩
    (by decide) (by decide)).1 (by decide)
  have h2 := (conditional_jumps ⟨2, 3, 0, 4, 0, padded [3, 5, 15, 9], []⟩
    (by decide) (by decide)).2 (by decide)
  have h3 := (conditional_jumps ⟨2, 3, -3, 4, 0, padded [3, 5, 14, 9], []⟩
    (by decide) (by decide)).1 (by decide)
  have h4 := (conditional_jumps ⟨2, 3, -3, 4, 0, padded [3, 5, 15, 9], []⟩
    (by decide) (by decide)).2 (by decide)
  obtain ⟨v1, hv1, hc1⟩ := h1
  obtain ⟨v2, hv2, hc2⟩ := h2
  obtain ⟨v3, hv3, hc3⟩ := h3
  obtain ⟨v4, hv4, hc4⟩ := h4
  have e1 : v1 = 9 := Option.some.inj (hv1.symm.trans (by decide))
  have e2 : v2 = 9 := Option.some.inj (hv2.symm.trans (by decide))
  have e3 : v3 = 9 := Option.some.inj (hv3.symm.trans (by decide))
  have e4 : v4 = 9 := Option.some.inj (hv4.symm.trans (by decide))
  subst e1 e2 e3 e4
  exact ⟨hc1, hc2, hc3, hc4⟩

/-! ## LOAD and STORE -/

theorem readMem_set_other {memory : List Int} {a i : Int} (v : Int) (ha : 0 ≤ a)
    (hne : i ≠ a) : readMem (memory.set a.toNat v) i = readMem memory i := by
  unfold readMem
  by_cases hb : 0 ≤ i ∧ i < 16
  · have hn : a.toNat ≠ i.toNat := by omega
    simp [hb, List.getElem?_set_ne hn]
  · simp [hb]

/-- C19: in a state whose operand cell ip + 1 exists (so ip <= 14) and holds
an address a in 0..15, STORE0 / STORE1 put the register (converted to a cell, that is unchanged when
it is a `char` value) into cell a and leave every other cell, the 16 cells'
count and both registers as they are; LOAD0 / LOAD1 copy cell a into r0 / r1
and leave the other register and memory as they are; ip becomes ip + 2 and
the output is unchanged. -/
theorem load_store_frame (s : State) (a : Int) (hlen : s.memory.length = 16)
    (ha : readMem s.memory (s.ip + 1) = some a) (ha0 : 0 ≤ a) (ha15 : a ≤ 15) :
    (readMem s.memory s.ip = some 11 →
      ∃ m, cycle s = some { s with is := 11, data := a, ip := s.ip + 2, memory := m } ∧
        m.length = 16 ∧ readMem m a = some (toChar s.r0) ∧
        (-128 ≤ s.r0 ∧ s.r0 ≤ 127 → readMem m a = some s.r0) ∧
        ∀ i, i ≠ a → readMem m i = readMem s.memory i) ∧
    (readMem s.memory s.ip = some 12 →
      ∃ m, cycle s = some { s with is := 12, data := a, ip := s.ip + 2, memory := m } ∧
        m.length = 16 ∧ readMem m a = some (toChar s.r1) ∧
        (-128 ≤ s.r1 ∧ s.r1 ≤ 127 → readMem m a = some s.r1) ∧
        ∀ i, i ≠ a → readMem m i = readMem s.memory i) ∧
    (readMem s.memory s.ip = some 9 →
      ∃ v, readMem s.memory a = some v ∧
        cycle s = some { s with is := 9, data := a, ip := s.ip + 2, r0 := v }) ∧
    (readMem s.memory s.ip = some 10 →
      ∃ v, readMem s.memory a = some v ∧
        cycle s = some { s with is := 10, data := a, ip := s.ip + 2, r1 := v }) := by
  have e : s.ip + 1 + 1 = s.ip + 2 := by ring
  have hr : ∀ v : Int, readMem (s.memory.set a.toNat v) a = some v :=
    fun v => readMem_set_same v hlen ha0 (by omega)
  have hw : ∀ v : Int, writeMem s.memory a v = some (s.memory.set a.toNat (toChar v)) := by
    intro v
    have : a < 16 := by omega
    simp [writeMem, ha0, this]
  obtain ⟨c, hc⟩ := readMem_defined (i := a) hlen ha0 (by omega)
  refine ⟨?_, ?_, ?_, ?_⟩
  · intro hop
    refine ⟨s.memory.set a.toNat (toChar s.r0), ?_, by simp [hlen], hr _, ?_, ?_⟩
    · rw [fetch_operand hop (by decide) ha]
      simp [dispatch, hw, e]
    · intro h
      rw [hr, toChar_of_char h]
    · intro i hi
      exact readMem_set_other _ ha0 hi
  · intro hop
    refine ⟨s.memory.set a.toNat (toChar s.r1), ?_, by simp [hlen], hr _, ?_, ?_⟩
    · rw [fetch_operand hop (by decide) ha]
      simp [dispatch, hw, e]
    · intro h
      rw [hr, toChar_of_char h]
    · intro i hi
      exact readMem_set_other _ ha0 hi
  · intro hop
    refine ⟨c, hc, ?_⟩
    rw [fetch_operand hop (by decide) ha]
    simp [dispatch, hc, e]
  · intro hop
    refine ⟨c, hc, ?_⟩
    rw [fetch_operand hop (by decide) ha]
    simp [dispatch, hc, e]


theorem load_store_frame_witness :
    (∃ m, cycle ⟨1, 3, 7, 2, 0, padded [3, 11, 4, 0, 6], []⟩
        = some ⟨1 + 2, 11, 7, 2, 4, m, []⟩ ∧
      readMem m 4 = some 7 ∧ readMem m 0 = readMem (padded [3, 11, 4, 0, 6]) 0) ∧
    (∃ m, cycle ⟨1, 3, 7, 2, 0, padded [3, 12, 4, 0, 6], []⟩
        = some ⟨1 + 2, 12, 7, 2, 4, m, []⟩ ∧
      readMem m 4 = some 2 ∧ readMem m 0 = readMem (padded [3, 12, 4, 0, 6]) 0) ∧
    (∃ v, readMem (padded [3, 9, 4, 0, 6]) 4 = some v ∧
      cycle ⟨1, 3, 7, 2, 0, padded [3, 9, 4, 0, 6], []⟩
        = some ⟨1 + 2, 9, v, 2, 4, padded [3, 9, 4, 0, 6], []⟩) ∧
    (∃ v, readMem (padded [3, 10, 4, 0, 6]) 4 = some v ∧
      cycle ⟨1, 3, 7, 2, 0, padded [3, 10, 4, 0, 6], []⟩
        = some ⟨1 + 2, 10, 7, v, 4, padded [3, 10, 4, 0, 6], []⟩) := by
  obtain ⟨m1, hc1, _, _, hr1, ho1⟩ :=
    (load_store_frame ⟨1, 3, 7, 2, 0, padded [3, 11, 4, 0, 6], []⟩ 4
      (by decide) (by decide) (by decide) (by decide)).1 (by decide)
  obtain ⟨m2, hc2, _, _, hr2, ho2⟩ :=
    (load_store_frame ⟨1, 3, 7, 2, 0, padded [3, 12, 4, 0, 6], []⟩ 4
      (by decide) (by decide) (by decide) (by decide)).2.1 (by decide)
  have h3 := (load_store_frame ⟨1, 3, 7, 2, 0, padded [3, 9, 4, 0, 6], []⟩ 4
    (by decide) (by decide) (by decide) (by decide)).2.2.1 (by decide)
  have h4 := (load_store_frame ⟨1, 3, 7, 2, 0, padded [3, 10, 4, 0, 6], []⟩ 4
    (by decide) (by decide) (by decide) (by decide)).2.2.2 (by decide)
  exact ⟨⟨m1, hc1, hr1 (by decide), ho1 0 (by decide)⟩,
    ⟨m2, hc2, hr2 (by decide), ho2 0 (by decide)⟩, h3, h4⟩

/-! ## Cycles that stay inside the array -/

theorem dispatch_no_operand (s : State) (h0 : 0 ≤ s.is) (h7 : s.is ≤ 7) :
    ∃ s', dispatch s = some s' := by
  have h : s.is = 0 ∨ s.is = 1 ∨ s.is = 2 ∨ s.is = 3 ∨ s.is = 4 ∨ s.is = 5 ∨ s.is = 6 ∨
      s.is = 7 := by omega
  rcases h with h | h | h | h | h | h | h | h <;> simp [dispatch, h]

/-- The `switch` of an opcode 8..15 whose operand is a cell value in 0..15,
read from the cell just before ip. -/
theorem dispatch_operand (s : State) (hlen : s.memory.length = 16) (h8 : 8 ≤ s.is)
    (h15 : s.is ≤ 15) (hd0 : 0 ≤ s.data) (hd15 : s.data ≤ 15)
    (hprev : readMem s.memory (s.ip - 1) = some s.data) :
    ∃ s', dispatch s = some s' := by
  obtain ⟨c, hc⟩ := readMem_defined (i := s.data) hlen hd0 (by omega)
  have hw : ∀ v : Int, writeMem s.memory s.data v
      = some (s.memory.set s.data.toNat (toChar v)) := by
    intro v
    have : s.data < 16 := by omega
    simp [writeMem, hd0, this]
  have h : s.is = 8 ∨ s.is = 9 ∨ s.is = 10 ∨ s.is = 11 ∨ s.is = 12 ∨ s.is = 13 ∨
      s.is = 14 ∨ s.is = 15 := by omega
  rcases h with h | h | h | h | h | h | h | h
  · simp [dispatch, h, hprev]
  · simp [dispatch, h, hc]
  · simp [dispatch, h, hc]
  · simp [dispatch, h, hw]
  · simp [dispatch, h, hw]
  · simp [dispatch, h]
  · by_cases hr : s.r0 = 0 <;> simp [dispatch, h, hr]
  · by_cases hr : s.r0 = 0 <;> simp [dispatch, h, hr]

theorem cell_in_range {memory : List Int} {i v : Int}
    (hcells : ∀ x ∈ memory, 0 ≤ x ∧ x ≤ 15) (h : readMem memory i = some v) :
    0 ≤ v ∧ v ≤ 15 := by
  have hb := readMem_bounds h
  simp only [readMem, hb, and_self, if_true] at h
  exact hcells v (List.getElem?_mem h)

theorem readMem_outside {memory : List Int} {i : Int} (h : 16 ≤ i) :
    readMem memory i = none := by
  have : ¬ (0 ≤ i ∧ i < 16) := by omega
  simp [readMem, this]

/-- C20: on 16 cells with values in 0..15, a cycle that starts with
ip > 15, or with 0 <= ip <= 14, or with ip = 15 and an opcode at most 7 in
cell 15, is defined, that is, every memory access of the cycle is at an index
in 0..15; and a cycle that starts with 0 <= ip <= 15 is undefined exactly when
ip = 15 and cell 15 holds an opcode of 8 or more, in which case the fetch
succeeds and it is the operand read, at index 16, that leaves the array. -/
theorem in_bounds_step (s : State) (hlen : s.memory.length = 16)
    (hcells : ∀ x ∈ s.memory, 0 ≤ x ∧ x ≤ 15) :
    ((s.ip > 15 ∨ (0 ≤ s.ip ∧ s.ip ≤ 14) ∨
        (s.ip = 15 ∧ ∃ v, readMem s.memory 15 = some v ∧ v ≤ 7)) →
      ∃ s', cycle s = some s') ∧
    ((0 ≤ s.ip ∧ s.ip ≤ 15) →
      (cycle s = none ↔ (s.ip = 15 ∧ ∃ v, readMem s.memory 15 = some v ∧ 8 ≤ v)) ∧
      (cycle s = none →
        ∃ v, fetch s = some { s with is := v, ip := 16 } ∧ 8 ≤ v ∧
          readMem s.memory 16 = none ∧ operand { s with is := v, ip := 16 } = none)) := by
  have key : ∀ op, readMem s.memory s.ip = some op →
      (op ≤ 7 ∨ s.ip ≤ 14) → ∃ s', cycle s = some s' := by
    intro op hop hcase
    have hb := readMem_bounds hop
    obtain ⟨hop0, hop15⟩ := cell_in_range hcells hop
    by_cases h7 : op ≤ 7
    · have ho : operand { s with is := op, ip := s.ip + 1 }
          = some { s with is := op, ip := s.ip + 1 } := by
        have : ¬ op > 7 := by omega
        simp [operand, this]
      obtain ⟨s', hd⟩ := dispatch_no_operand { s with is := op, ip := s.ip + 1 } hop0 h7
      exact ⟨s', by simp [cycle, fetch_of_read hop, ho, hd]⟩
    · have h14 : s.ip ≤ 14 := by omega
      obtain ⟨v, hv⟩ := readMem_defined (i := s.ip + 1) hlen (by omega) (by omega)
      obtain ⟨hv0, hv15⟩ := cell_in_range hcells hv
      rw [fetch_operand hop (by omega) hv]
      exact dispatch_operand _ hlen (by simp only; omega) hop15 hv0 hv15
        (by simpa using hv)
  have none15 : ∀ v, s.ip = 15 → readMem s.memory 15 = some v → 8 ≤ v →
      fetch s = some { s with is := v, ip := 16 } ∧
      operand { s with is := v, ip := 16 } = none ∧ cycle s = none := by
    intro v hip hv h8
    have hf : fetch s = some { s with is := v, ip := 16 } := by
      have := fetch_of_read (s := s) (v := v) (by rw [hip]; exact hv)
      rw [this, hip]
      rfl
    have ho : operand { s with is := v, ip := 16 } = none := by
      have h7 : v > 7 := by omega
      have hout : readMem s.memory 16 = none := readMem_outside (le_refl _)
      simp [operand, h7, hout]
    exact ⟨hf, ho, by simp [cycle, hf, ho]⟩
  constructor
  · intro hcase
    rcases hcase with h | ⟨h0, h14⟩ | ⟨h15, v, hv, h7⟩
    · exact ⟨_, cycle_past_end s h⟩
    · obtain ⟨op, hop⟩ := readMem_defined (i := s.ip) hlen h0 (by omega)
      exact key op hop (Or.inr h14)
    · exact key v (by rw [h15]; exact hv) (Or.inl h7)
  · intro hip
    obtain ⟨op, hop⟩ := readMem_defined (i := s.ip) hlen hip.1 (by omega)
    have hiff : cycle s = none ↔ (s.ip = 15 ∧ ∃ v, readMem s.memory 15 = some v ∧ 8 ≤ v) := by
      constructor
      · intro hnone
        by_cases hcase : op ≤ 7 ∨ s.ip ≤ 14
        · obtain ⟨s', hs'⟩ := key op hop hcase
          rw [hs'] at hnone
          cases hnone
        · have h15 : s.ip = 15 := by omega
          exact ⟨h15, op, by rw [← h15]; exact hop, by omega⟩
      · rintro ⟨h15, v, hv, h8⟩
        exact (none15 v h15 hv h8).2.2
    refine ⟨hiff, ?_⟩
    intro hnone
    obtain ⟨h15, v, hv, h8⟩ := hiff.mp hnone
    obtain ⟨hf, ho, _⟩ := none15 v h15 hv h8
    exact ⟨v, hf, h8, readMem_outside (le_refl _), ho⟩

theorem in_bounds_step_witness :
    (∃ s', cycle ⟨15, 0, 3, 0, 0, List.replicate 15 0 ++ [5], []⟩ = some s') ∧
    (∃ s', cycle ⟨14, 0, 3, 0, 0, List.replicate 14 0 ++ [11, 15], []⟩ = some s') ∧
    cycle ⟨15, 0, 3, 0, 0, List.replicate 15 0 ++ [9], []⟩ = none := by
  have h1 := (in_bounds_step ⟨15, 0, 3, 0, 0, List.replicate 15 0 ++ [5], []⟩
    (by decide) (by decide)).1 (Or.inr (Or.inr ⟨rfl, 5, by decide, by decide⟩))
  have h2 := (in_bounds_step ⟨14, 0, 3, 0, 0, List.replicate 14 0 ++ [11, 15], []⟩
    (by decide) (by decide)).1 (Or.inr (Or.inl (by decide)))
  have h3 := ((in_bounds_step ⟨15, 0, 3, 0, 0, List.replicate 15 0 ++ [9], []⟩
    (by decide) (by decide)).2 (by decide)).1.mpr ⟨rfl, 9, by decide, by decide⟩
  exact ⟨h1, h2, h3⟩

end Em4917
